import Mathlib

/-!
Shallow embedding of the Floorboards core (the pool-based `Room` variant:
classes `HEdge`, `Plank`, `Column`, `Room` with `Room.recomputeFloor`,
`Room.selectPartial`, `Room.shuffle`, `Room.waste`).

Numbers are modelled as rationals.  JavaScript sentinels
`Number.MAX_SAFE_INTEGER` / `Number.MIN_SAFE_INTEGER` are the
corresponding rational constants.  The `cut_end` strings `""`, `">"` and
`"<"` become the inductive `CutEnd` (`none` / `topCut` / `botCut`).
The global counter `Plank.NEXT` is threaded explicitly through the layout
loop as a `nextId : Nat` component; the internal `uid` field plays no role
in any claim and is omitted.  Loops are embedded as follows: the
full-plank `while (h > PLANK_LENGTH)` loop becomes `fullFill`, driven by
enough fuel whenever `PLANK_LENGTH > 0` and answering `none` (divergence)
when the fuel is exhausted with the loop guard still true; the outer
column `while (l < rightmost)` loop becomes `columnLoop`, again fuelled,
with `Room.recomputeFloor fuel r = none` meaning the computation did not
finish within `fuel` iterations.
-/

/-- Sentinel used by the source for not-yet-clipped column tops
(`Number.MAX_SAFE_INTEGER`). -/
def MAX_SAFE_INTEGER : ℚ := 9007199254740991

/-- Sentinel used by the source for not-yet-clipped column bottoms
(`Number.MIN_SAFE_INTEGER`). -/
def MIN_SAFE_INTEGER : ℚ := -9007199254740991

/-- Which end of a plank segment is a fresh saw cut: `none` is the source's
`""`, `topCut` is `">"` (top end cut) and `botCut` is `"<"` (bottom end
cut). -/
inductive CutEnd where
  | none
  | topCut
  | botCut
deriving DecidableEq

/-- One room vertex (the `label`/`id` string is irrelevant to layout and
omitted). -/
structure Vertex where
  x : ℚ
  y : ℚ
deriving DecidableEq

/-- Horizontal edge of the room polygon (class `HEdge`). -/
structure HEdge where
  left : ℚ
  right : ℚ
  y : ℚ
deriving DecidableEq

/-- One physical board segment (class `Plank`).  The `uid` counter is not
modelled; `id` is the user-facing number shared by the two pieces of one
cut. -/
structure Plank where
  id : Nat
  cut_end : CutEnd
  left : ℚ
  top : ℚ
  width : ℚ
  length : ℚ
  permanent : Bool
deriving DecidableEq

/-- One fixed-width vertical strip of the room (class `Column`). -/
structure Column where
  left : ℚ
  width : ℚ
  top : ℚ
  bottom : ℚ
  planks : List Plank
deriving DecidableEq

/-- Right edge of a column (getter `Column.right`). -/
def Column.right (c : Column) : ℚ := c.left + c.width

/-- Height of a column (getter `Column.height`). -/
def Column.height (c : Column) : ℚ := c.bottom - c.top

/-- Column as freshly constructed by `new Column({left, width})`:
top and bottom hold the uninitialised sentinels. -/
def Column.new (l w : ℚ) : Column :=
  { left := l, width := w, top := MAX_SAFE_INTEGER,
    bottom := MIN_SAFE_INTEGER, planks := [] }

/-- Method `Column.clip(hedge)`: if the horizontal edge overlaps the
column's span (four overlap cases, tested with the source's exact strict
and non-strict comparisons) then narrow `top`/`bottom` towards the edge's
`y`. -/
def Column.clip (c : Column) (e : HEdge) : Column :=
  if (e.left ≤ c.left ∧ e.right > c.left)
      ∨ (e.left < c.right ∧ e.right ≥ c.right)
      ∨ (e.left < c.left ∧ e.right > c.right)
      ∨ (e.left > c.left ∧ e.right < c.right) then
    { c with bottom := max e.y c.bottom, top := min e.y c.top }
  else c

/-- Method `Column.lineUpPlanks()`: snap every plank's `left` to the
column's `left`. -/
def Column.lineUpPlanks (c : Column) : Column :=
  { c with planks := c.planks.map (fun p => { p with left := c.left }) }

/-- The room (class `Room`).  `planksNeeded` and `cuts` are the running
counters of the latest layout; `partials` is the pool of re-usable
partial planks. -/
structure Room where
  vertices : List Vertex
  hedges : List HEdge
  leftmost : ℚ
  rightmost : ℚ
  topmost : ℚ
  bottommost : ℚ
  partials : List Plank
  columns : List Column
  planksNeeded : Nat
  cuts : Nat
  START_LEFT : ℚ
  START_TOP : ℚ
  PLANK_WIDTH : ℚ
  PLANK_LENGTH : ℚ
  CUT_THICKNESS : ℚ
  MIN_PLANK_LENGTH : ℚ
deriving DecidableEq

/-- Getter `Room.waste`: derived, not accumulated —
`planksNeeded * PLANK_LENGTH` minus the summed column heights. -/
def Room.waste (r : Room) : ℚ :=
  r.planksNeeded * r.PLANK_LENGTH - (r.columns.map Column.height).sum

/-- Method `Room.selectPartial(cut_end, min_length)` on the pool: scan for
the longest plank whose cut end matches and whose length strictly exceeds
`min_length`; the first such maximal plank (lowest index, since only a
strictly greater length displaces the current best) is spliced out and
returned together with the remaining pool.  Returns `Option.none` when no
plank matches. -/
def selectPartial (ce : CutEnd) (ml : ℚ) : List Plank → Option (Plank × List Plank)
  | [] => Option.none
  | p :: rest =>
    if p.cut_end = ce ∧ p.length > ml then
      match selectPartial ce ml rest with
      | Option.some (q, rest') =>
        if q.length > p.length then Option.some (q, p :: rest')
        else Option.some (p, rest)
      | Option.none => Option.some (p, rest)
    else
      match selectPartial ce ml rest with
      | Option.some (q, rest') => Option.some (q, p :: rest')
      | Option.none => Option.none

/-- Horizontal-edge extraction of `Room.measure()`: every pair of
cyclically consecutive vertices with equal `y` yields one `HEdge`. -/
def hedgesOf (vs : List Vertex) : List HEdge :=
  (List.range vs.length).filterMap fun i =>
    match vs.get? i, vs.get? ((i + 1) % vs.length) with
    | Option.some p1, Option.some p2 =>
      if p1.y = p2.y then
        Option.some { left := min p1.x p2.x, right := max p1.x p2.x, y := p1.y }
      else Option.none
    | _, _ => Option.none

/-- Method `Room.measure()`: recompute `hedges` and the bounding box from
the vertices, starting the bounds at the sentinels. -/
def Room.measure (r : Room) : Room :=
  { r with
    hedges := hedgesOf r.vertices
    leftmost := r.vertices.foldl (fun a v => min a v.x) MAX_SAFE_INTEGER
    rightmost := r.vertices.foldl (fun a v => max a v.x) MIN_SAFE_INTEGER
    topmost := r.vertices.foldl (fun a v => min a v.y) MAX_SAFE_INTEGER
    bottommost := r.vertices.foldl (fun a v => max a v.y) MIN_SAFE_INTEGER }

/-- Method `Room.collectPermanentPartials()`: keep the permanent planks
from the pool and then from every column, reassigning them the ids
`1, 2, ...` (the source resets `Plank.NEXT = 1` immediately before).
Returns the fresh pool together with the next unused id. -/
def assignIds (n : Nat) : List Plank → List Plank × Nat
  | [] => ([], n)
  | p :: ps =>
    let r := assignIds (n + 1) ps
    ({ p with id := n } :: r.1, r.2)

/-- Permanent planks swept from the pool, then from the placed columns,
in source order. -/
def permanentPlanks (r : Room) : List Plank :=
  r.partials.filter (fun p => p.permanent)
    ++ (r.columns.map (fun c => c.planks.filter (fun p => p.permanent))).flatten

/-- Mutable state of the column loop of `Room.recomputeFloor`:
`l` is the left edge of the next column, `firstOffset` the remaining
`START_TOP` offset (zeroed after the first attempt), `pickPartial` the
flag disabling a partial start immediately after a retry, `partials` the
pool, `nextId` the value of the global counter `Plank.NEXT`, and
`columns` / `planksNeeded` / `cuts` the output being accumulated. -/
structure LoopState where
  l : ℚ
  firstOffset : ℚ
  pickPartial : Bool
  partials : List Plank
  nextId : Nat
  columns : List Column
  planksNeeded : Nat
  cuts : Nat
deriving DecidableEq

/-- Initial loop state of `Room.recomputeFloor`. -/
def initState (r : Room) : LoopState :=
  let coll := assignIds 1 (permanentPlanks r)
  { l := r.leftmost + r.START_LEFT, firstOffset := r.START_TOP,
    pickPartial := true, partials := coll.1, nextId := coll.2,
    columns := [], planksNeeded := 0, cuts := 0 }

/-- The column under construction at `st.l`: a fresh column clipped
against every horizontal edge. -/
def colAt (r : Room) (st : LoopState) : Column :=
  r.hedges.foldl Column.clip (Column.new st.l r.PLANK_WIDTH)

/-- Fill position at the top of the column
(`y = col.top + first_offset`). -/
def yStart (r : Room) (st : LoopState) : ℚ := (colAt r st).top + st.firstOffset

/-- Height to fill (`h = col.height - first_offset`). -/
def hStart (r : Room) (st : LoopState) : ℚ := (colAt r st).height - st.firstOffset

/-- The optional partial-plank start of the column: only tried when
`pickPartial` is set, via `selectPartial(">")` with its default
`min_length = 0`. -/
def startSel (r : Room) (st : LoopState) : Option (Plank × List Plank) :=
  if st.pickPartial then selectPartial CutEnd.topCut 0 st.partials
  else Option.none

/-- Fuel that upper-bounds the iterations of the full-plank loop
`while (h > PLANK_LENGTH)` whenever `PLANK_LENGTH > 0` (one more than the
iteration count `⌈(h - PLANK_LENGTH) / PLANK_LENGTH⌉`). -/
def innerFuel (PL h : ℚ) : Nat := (⌈(h - PL) / PL⌉).toNat + 1

/-- The loop `while (h > PLANK_LENGTH)` of `Room.recomputeFloor`: push
full planks (each taking a fresh id from the counter) and advance `y`
while decreasing `h`.  Returns the pushed planks, the final `y` and `h`,
the final id counter, and the `fullPlanks` count; answers `Option.none`
when the fuel runs out with the guard still true, which for positive
`PLANK_LENGTH` never happens with `innerFuel` fuel. -/
def fullFill (r : Room) : Nat → ℚ → ℚ → ℚ → Nat → Option (List Plank × ℚ × ℚ × Nat × Nat)
  | 0, _, y, h, nid =>
    if h > r.PLANK_LENGTH then Option.none else Option.some ([], y, h, nid, 0)
  | n + 1, l, y, h, nid =>
    if h > r.PLANK_LENGTH then
      match fullFill r n l (y + r.PLANK_LENGTH) (h - r.PLANK_LENGTH) (nid + 1) with
      | Option.none => Option.none
      | Option.some (ps, y', h', nid', k) =>
        Option.some ({ id := nid, cut_end := CutEnd.none, left := l, top := y,
                       width := r.PLANK_WIDTH, length := r.PLANK_LENGTH,
                       permanent := false } :: ps, y', h', nid', k + 1)
    else Option.some ([], y, h, nid, 0)

/-- The trailing plank cut for a column whose remaining height is `h`
(`new Plank({left, top, width, length: h, cut_end: "<"})`, drawing the
fresh id `nid`). -/
def cutPlank (r : Room) (l y h : ℚ) (nid : Nat) : Plank :=
  { id := nid, cut_end := CutEnd.botCut, left := l, top := y,
    width := r.PLANK_WIDTH, length := h, permanent := false }

/-- The leftover of the cut: banked as a top-cut partial sharing the cut
plank's id when `PLANK_LENGTH - h - CUT_THICKNESS` strictly exceeds
`MIN_PLANK_LENGTH`, otherwise wasted (empty bank). -/
def bankOf (r : Room) (l y h : ℚ) (nid : Nat) : List Plank :=
  if r.PLANK_LENGTH - h - r.CUT_THICKNESS > r.MIN_PLANK_LENGTH then
    [{ id := nid, cut_end := CutEnd.topCut, left := l, top := y + h,
       width := r.PLANK_WIDTH, length := r.PLANK_LENGTH - h - r.CUT_THICKNESS,
       permanent := false }]
  else []

/-- The probe `selectPartial("<")` performed just before a fresh cut when
`pickPartial` is set: a found candidate shorter than `h` is pushed back,
a long-enough candidate is merely logged and never re-inserted. -/
def probePool (r : Room) (pick : Bool) (h : ℚ) (pool : List Plank) : List Plank :=
  if pick then
    match selectPartial CutEnd.botCut 0 pool with
    | Option.some (q, rest) => if q.length ≥ h then rest else rest ++ [q]
    | Option.none => pool
  else pool

/-- Tail of a column attempt that was not retried: count the full planks,
make the trailing cut when `0 < h` (probing the pool first, pushing the
cut plank, banking or wasting the leftover), then advance `l` by one
plank width and re-enable partial starts. -/
def finishColumn (r : Room) (st : LoopState) (col : Column) (startPs : List Plank)
    (fps : List Plank) (y2 h2 : ℚ) (nid2 : Nat) (pool : List Plank) : LoopState :=
  if 0 < h2 then
    { l := st.l + r.PLANK_WIDTH, firstOffset := 0, pickPartial := true,
      partials := probePool r st.pickPartial h2 pool ++ bankOf r st.l y2 h2 nid2,
      nextId := nid2 + 1,
      columns := st.columns ++ [{ col with planks := startPs ++ fps ++ [cutPlank r st.l y2 h2 nid2] }],
      planksNeeded := st.planksNeeded + fps.length + 1,
      cuts := st.cuts + 1 }
  else
    { l := st.l + r.PLANK_WIDTH, firstOffset := 0, pickPartial := true,
      partials := pool, nextId := nid2,
      columns := st.columns ++ [{ col with planks := startPs ++ fps }],
      planksNeeded := st.planksNeeded + fps.length,
      cuts := st.cuts }

/-- One iteration of the column loop of `Room.recomputeFloor`: build and
clip the column, optionally start it with a top-cut partial, greedily lay
full planks, then either fire the retry rule
(`0 < h < MIN_PLANK_LENGTH` and the column was started with a partial:
push the partial back, drop the column, keep `l`, disable partial starts)
or finish the column via `finishColumn`.  `Option.none` reports a
diverging full-plank loop. -/
def stepColumn (r : Room) (st : LoopState) : Option LoopState :=
  match startSel r st with
  | Option.some (p, pool1) =>
    match fullFill r (innerFuel r.PLANK_LENGTH (hStart r st - p.length)) st.l
        (yStart r st + p.length) (hStart r st - p.length) st.nextId with
    | Option.none => Option.none
    | Option.some (fps, y2, h2, nid2, _) =>
      if 0 < h2 ∧ h2 < r.MIN_PLANK_LENGTH then
        Option.some { st with
          partials := pool1 ++ [{ p with left := st.l, top := yStart r st }],
          pickPartial := false, firstOffset := 0, nextId := nid2 }
      else
        Option.some (finishColumn r st (colAt r st)
          [{ p with left := st.l, top := yStart r st }] fps y2 h2 nid2 pool1)
  | Option.none =>
    match fullFill r (innerFuel r.PLANK_LENGTH (hStart r st)) st.l
        (yStart r st) (hStart r st) st.nextId with
    | Option.none => Option.none
    | Option.some (fps, y2, h2, nid2, _) =>
      Option.some (finishColumn r st (colAt r st) [] fps y2 h2 nid2 st.partials)

/-- The loop `while (l < rightmost)` of `Room.recomputeFloor`, fuelled by
the number of iterations still allowed. -/
def columnLoop (r : Room) : Nat → LoopState → Option LoopState
  | 0, st => if st.l < r.rightmost then Option.none else Option.some st
  | n + 1, st =>
    if st.l < r.rightmost then
      match stepColumn r st with
      | Option.none => Option.none
      | Option.some st' => columnLoop r n st'
    else Option.some st

/-- Method `Room.recomputeFloor()`: reset the id counter, collect the
permanent partials, run the column loop from
`l = leftmost + START_LEFT`, and store the produced columns, pool and
counters on the room. -/
def Room.recomputeFloor (fuel : Nat) (r : Room) : Option Room :=
  match columnLoop r fuel (initState r) with
  | Option.none => Option.none
  | Option.some st =>
    Option.some
      { r with
        columns := st.columns
        partials := st.partials
        planksNeeded := st.planksNeeded
        cuts := st.cuts }

/-- Column with its `left` replaced and its planks lined up, as done to
both ends of a transposition in the swap phase of `Room.shuffle`. -/
def setLeft (c : Column) (x : ℚ) : Column :=
  Column.lineUpPlanks { c with left := x }

/-- One transposition of the swap phase of `Room.shuffle`: exchange the
`left` coordinates of the columns at positions `i` and `j` and line up
their planks. -/
def swapLefts (cols : List Column) (i j : Nat) : List Column :=
  match cols.get? i, cols.get? j with
  | Option.some ci, Option.some cj =>
    (cols.set i (setLeft ci cj.left)).set j (setLeft cj ci.left)
  | _, _ => cols

/-- The swap phase of `Room.shuffle`.  The source draws `2 × binSize`
random partners with `Math.random` inside each equal-height bin; the
draws are modelled by the list of index pairs actually swapped, so every
run of the source corresponds to some `swaps` list. -/
def swapPhase (swaps : List (Nat × Nat)) (cols : List Column) : List Column :=
  swaps.foldl (fun cs pr => swapLefts cs pr.1 pr.2) cols

/-- Comparator of the re-sort step of `Room.shuffle` (ascending `left`). -/
def leftLE (a b : Column) : Prop := a.left ≤ b.left

instance : DecidableRel leftLE := fun a b => inferInstanceAs (Decidable (a.left ≤ b.left))

instance : IsTotal Column leftLE := ⟨fun a b => le_total a.left b.left⟩

instance : IsTrans Column leftLE := ⟨fun _ _ _ hab hbc => le_trans hab hbc⟩

/-- The re-sort step of `Room.shuffle`: sort the columns by ascending
`left`. -/
def sortColumns (cols : List Column) : List Column := List.insertionSort leftLE cols

/-- Value assigned to the key `k` by the renumbering lookup `remap`
(association list, first entry wins). -/
def lookupV (m : List (Nat × Nat)) (k : Nat) : Nat :=
  match m.find? (fun e => e.1 == k) with
  | Option.some e => e.2
  | Option.none => 0

/-- Renumbering of a list of plank ids, mirroring the `remap` loop of
`Room.shuffle`: an id seen before maps to its recorded value, a new id is
recorded with the next counter value. -/
def renumberIds (m : List (Nat × Nat)) (next : Nat) :
    List Nat → List (Nat × Nat) × Nat × List Nat
  | [] => (m, next, [])
  | k :: ks =>
    match m.find? (fun e => e.1 == k) with
    | Option.some e =>
      let res := renumberIds m next ks
      (res.1, res.2.1, e.2 :: res.2.2)
    | Option.none =>
      let res := renumberIds (m ++ [(k, next)]) (next + 1) ks
      (res.1, res.2.1, next :: res.2.2)

/-- The renumbering loop of `Room.shuffle` over the planks of one
column. -/
def renumberPlanks (m : List (Nat × Nat)) (next : Nat) :
    List Plank → List (Nat × Nat) × Nat × List Plank
  | [] => (m, next, [])
  | p :: ps =>
    match m.find? (fun e => e.1 == p.id) with
    | Option.some e =>
      let res := renumberPlanks m next ps
      (res.1, res.2.1, { p with id := e.2 } :: res.2.2)
    | Option.none =>
      let res := renumberPlanks (m ++ [(p.id, next)]) (next + 1) ps
      (res.1, res.2.1, { p with id := next } :: res.2.2)

/-- The renumbering loop of `Room.shuffle` over all columns. -/
def renumberCols (m : List (Nat × Nat)) (next : Nat) :
    List Column → List (Nat × Nat) × Nat × List Column
  | [] => (m, next, [])
  | c :: cs =>
    let rp := renumberPlanks m next c.planks
    let res := renumberCols rp.1 rp.2.1 cs
    (res.1, res.2.1, { c with planks := rp.2.2 } :: res.2.2)

/-- Renumbering of `Room.shuffle`: fresh lookup, counter starting at 1. -/
def renumber (cols : List Column) : List Column := (renumberCols [] 1 cols).2.2

/-- Method `Room.shuffle()`: swap `left` coordinates inside equal-height
bins (randomness abstracted by `swaps`), re-sort the columns by `left`,
and renumber the plank ids. -/
def Room.shuffle (swaps : List (Nat × Nat)) (r : Room) : Room :=
  { r with columns := renumber (sortColumns (swapPhase swaps r.columns)) }

/-- Total number of placed planks of a column list. -/
def totalPlanks (cols : List Column) : Nat := (cols.map (fun c => c.planks.length)).sum

/-- Multiset of column heights of a column list. -/
def heightsM (cols : List Column) : Multiset ℚ := (cols.map Column.height : List ℚ)

/-- All plank ids of a column list, in column order then plank order (the
traversal order of the renumbering loop). -/
def flatIds (cols : List Column) : List Nat :=
  (cols.map (fun c => c.planks.map (fun p => p.id))).flatten

/-- Distinct elements of a list in first-encounter order. -/
def firstDedup (seen : List Nat) (l : List Nat) : List Nat :=
  l.foldl (fun acc a => if a ∈ acc then acc else acc ++ [a]) seen

/-- Room template carrying the parameter set used by the spec's square
scenario: `PLANK_WIDTH = 10`, `PLANK_LENGTH = 60`, `CUT_THICKNESS = 0`,
`MIN_PLANK_LENGTH = 20`, `START_LEFT = START_TOP = 0`, no vertices, an
empty pool and sentinel bounds. -/
def blankRoom : Room :=
  { vertices := [], hedges := [], leftmost := MAX_SAFE_INTEGER,
    rightmost := MIN_SAFE_INTEGER, topmost := MAX_SAFE_INTEGER,
    bottommost := MIN_SAFE_INTEGER, partials := [], columns := [],
    planksNeeded := 0, cuts := 0, START_LEFT := 0, START_TOP := 0,
    PLANK_WIDTH := 10, PLANK_LENGTH := 60, CUT_THICKNESS := 0,
    MIN_PLANK_LENGTH := 20 }

/-- The 100 × 100 unit square room of the spec's scenario. -/
def square100 : Room :=
  Room.measure { blankRoom with
    vertices := [⟨0, 0⟩, ⟨100, 0⟩, ⟨100, 100⟩, ⟨0, 100⟩] }

/-- A 5-unit-wide square room: narrower than one plank width (10). -/
def room5 : Room :=
  Room.measure { blankRoom with
    vertices := [⟨0, 0⟩, ⟨5, 0⟩, ⟨5, 5⟩, ⟨0, 5⟩] }

/-- A 100 × 60 room: every column's clipped height is exactly one
`PLANK_LENGTH`. -/
def room60 : Room :=
  Room.measure { blankRoom with
    vertices := [⟨0, 0⟩, ⟨100, 0⟩, ⟨100, 60⟩, ⟨0, 60⟩] }

/-- The 100 × 100 square with `PLANK_LENGTH = 0` (and positive
`PLANK_WIDTH`): the full-plank loop diverges. -/
def roomPL0 : Room :=
  Room.measure { { blankRoom with PLANK_LENGTH := 0 } with
    vertices := [⟨0, 0⟩, ⟨100, 0⟩, ⟨100, 100⟩, ⟨0, 100⟩] }

/-- A single-column room of height 15 (one plank wide). -/
def room15 : Room :=
  Room.measure { blankRoom with
    vertices := [⟨0, 0⟩, ⟨10, 0⟩, ⟨10, 15⟩, ⟨0, 15⟩] }

/-- Loop state poised on the height-15 column with a 10-long top-cut
partial in the pool: the attempt leaves remnant 5 with
`0 < 5 < MIN_PLANK_LENGTH`, firing the retry rule. -/
def retryState : LoopState :=
  { l := 0, firstOffset := 0, pickPartial := true,
    partials := [{ id := 1, cut_end := CutEnd.topCut, left := 0, top := 0,
                   width := 10, length := 10, permanent := false }],
    nextId := 2, columns := [], planksNeeded := 0, cuts := 0 }

/-- A room whose single column is 120 high: exactly two plank lengths. -/
def room120 : Room :=
  Room.measure { blankRoom with
    vertices := [⟨0, 0⟩, ⟨10, 0⟩, ⟨10, 120⟩, ⟨0, 120⟩] }

/-- Loop state at the start of `room120`'s only column, empty pool. -/
def state120 : LoopState := initState room120

/-- Pool used to exercise `selectPartial` and the cut probe concretely:
two bottom-cut planks (lengths 30 and 50) and one top-cut plank. -/
def demoPool : List Plank :=
  [{ id := 1, cut_end := CutEnd.botCut, left := 0, top := 0,
     width := 10, length := 30, permanent := false },
   { id := 2, cut_end := CutEnd.topCut, left := 0, top := 0,
     width := 10, length := 25, permanent := false },
   { id := 3, cut_end := CutEnd.botCut, left := 0, top := 0,
     width := 10, length := 50, permanent := false }]

/-- Termination measure for the column loop: every step strictly
decreases it while `l < rightmost`. -/
def loopMeasure (r : Room) (st : LoopState) : Nat :=
  2 * (⌈(r.rightmost - st.l) / r.PLANK_WIDTH⌉).toNat
    + (if st.pickPartial then 1 else 0)

/-- Two-column fixture (heights both 100, one shared cut id 2 across the
columns, four distinct ids) used to exercise `Room.shuffle` concretely. -/
def shuffleDemo : Room :=
  { blankRoom with columns :=
      [{ left := 10, width := 10, top := 0, bottom := 100,
         planks := [{ id := 1, cut_end := CutEnd.none, left := 10, top := 0,
                      width := 10, length := 60, permanent := false },
                    { id := 2, cut_end := CutEnd.botCut, left := 10, top := 60,
                      width := 10, length := 40, permanent := false }] },
       { left := 0, width := 10, top := 0, bottom := 100,
         planks := [{ id := 2, cut_end := CutEnd.topCut, left := 0, top := 0,
                      width := 10, length := 20, permanent := false },
                    { id := 3, cut_end := CutEnd.none, left := 0, top := 20,
                      width := 10, length := 60, permanent := false },
                    { id := 4, cut_end := CutEnd.botCut, left := 0, top := 80,
                      width := 10, length := 20, permanent := false }] }] }

/-! Characterisation of the pool scan `selectPartial`. -/

lemma selectPartial_eq_none (ce : CutEnd) (ml : ℚ) :
    ∀ pool : List Plank, selectPartial ce ml pool = Option.none →
      ∀ q ∈ pool, ¬(q.cut_end = ce ∧ q.length > ml) := by
  intro pool
  induction pool with
  | nil => intro _ q hq; cases hq
  | cons x rest ih =>
    intro h q hq
    by_cases hc : x.cut_end = ce ∧ x.length > ml
    · exfalso
      simp only [selectPartial, if_pos hc] at h
      cases hsel : selectPartial ce ml rest with
      | none => rw [hsel] at h; exact Option.noConfusion h
      | some pr =>
        rw [hsel] at h
        obtain ⟨q', rest'⟩ := pr
        dsimp only at h
        by_cases hlen : q'.length > x.length
        · rw [if_pos hlen] at h; exact Option.noConfusion h
        · rw [if_neg hlen] at h; exact Option.noConfusion h
    · simp only [selectPartial, if_neg hc] at h
      cases hsel : selectPartial ce ml rest with
      | some pr =>
        rw [hsel] at h
        obtain ⟨q', rest'⟩ := pr
        exact Option.noConfusion h
      | none =>
        rcases List.mem_cons.mp hq with rfl | hq'
        · exact hc
        · exact ih hsel q hq'

lemma selectPartial_eq_some (ce : CutEnd) (ml : ℚ) :
    ∀ (pool : List Plank) (p : Plank) (rest : List Plank),
      selectPartial ce ml pool = Option.some (p, rest) →
      ∃ l1 l2, pool = l1 ++ p :: l2 ∧ rest = l1 ++ l2
        ∧ p.cut_end = ce ∧ p.length > ml
        ∧ (∀ q ∈ l1, q.cut_end = ce → q.length > ml → q.length < p.length)
        ∧ (∀ q ∈ pool, q.cut_end = ce → q.length > ml → q.length ≤ p.length) := by
  intro pool
  induction pool with
  | nil => intro p rest h; exact Option.noConfusion h
  | cons x rest0 ih =>
    intro p rest h
    by_cases hc : x.cut_end = ce ∧ x.length > ml
    · simp only [selectPartial, if_pos hc] at h
      cases hsel : selectPartial ce ml rest0 with
      | none =>
        rw [hsel] at h
        simp only [Option.some.injEq, Prod.mk.injEq] at h
        obtain ⟨rfl, rfl⟩ := h
        refine ⟨[], rest0, rfl, rfl, hc.1, hc.2, ?_, ?_⟩
        · intro q hq; cases hq
        · intro q hq hqe hql
          rcases List.mem_cons.mp hq with rfl | hq'
          · exact le_refl _
          · exact absurd ⟨hqe, hql⟩ (selectPartial_eq_none ce ml rest0 hsel q hq')
      | some pr =>
        rw [hsel] at h
        obtain ⟨q', rest'⟩ := pr
        dsimp only at h
        obtain ⟨ld1, ld2, hdec, hrest, hqe, hqml, hfirst, hmax⟩ := ih q' rest' hsel
        by_cases hlen : q'.length > x.length
        · rw [if_pos hlen] at h
          simp only [Option.some.injEq, Prod.mk.injEq] at h
          obtain ⟨rfl, rfl⟩ := h
          refine ⟨x :: ld1, ld2, by simp [hdec], by simp [hrest], hqe, hqml, ?_, ?_⟩
          · intro q hq hqe2 hql2
            rcases List.mem_cons.mp hq with rfl | hq'
            · exact hlen
            · exact hfirst q hq' hqe2 hql2
          · intro q hq hqe2 hql2
            rcases List.mem_cons.mp hq with rfl | hq'
            · exact le_of_lt hlen
            · exact hmax q (hdec ▸ hq') hqe2 hql2
        · rw [if_neg hlen] at h
          simp only [Option.some.injEq, Prod.mk.injEq] at h
          obtain ⟨rfl, rfl⟩ := h
          refine ⟨[], rest0, rfl, rfl, hc.1, hc.2, ?_, ?_⟩
          · intro q hq; cases hq
          · intro q hq hqe2 hql2
            rcases List.mem_cons.mp hq with rfl | hq'
            · exact le_refl _
            · exact le_trans (hmax q (hdec ▸ hq') hqe2 hql2) (le_of_not_lt hlen)
    · simp only [selectPartial, if_neg hc] at h
      cases hsel : selectPartial ce ml rest0 with
      | none => rw [hsel] at h; exact Option.noConfusion h
      | some pr =>
        rw [hsel] at h
        obtain ⟨q', rest'⟩ := pr
        dsimp only at h
        simp only [Option.some.injEq, Prod.mk.injEq] at h
        obtain ⟨rfl, rfl⟩ := h
        obtain ⟨ld1, ld2, hdec, hrest, hqe, hqml, hfirst, hmax⟩ := ih q' rest' hsel
        refine ⟨x :: ld1, ld2, by simp [hdec], by simp [hrest], hqe, hqml, ?_, ?_⟩
        · intro q hq hqe2 hql2
          rcases List.mem_cons.mp hq with rfl | hq'
          · exact absurd ⟨hqe2, hql2⟩ hc
          · exact hfirst q hq' hqe2 hql2
        · intro q hq hqe2 hql2
          rcases List.mem_cons.mp hq with rfl | hq'
          · exact absurd ⟨hqe2, hql2⟩ hc
          · exact hmax q (hdec ▸ hq') hqe2 hql2

/-- C5: for every pool state, `selectPartial(cutEnd, minLength)` returns
the longest plank whose cut end matches and whose length strictly exceeds
`minLength`, removing exactly that plank (first found wins on length
ties, witnessed by the strict bound over the prefix `l1`); when no plank
matches it returns none and the pool is untouched. -/
theorem selectPartial_correct (ce : CutEnd) (ml : ℚ) (pool : List Plank) :
    (selectPartial ce ml pool = Option.none →
      ∀ q ∈ pool, ¬(q.cut_end = ce ∧ q.length > ml))
    ∧ ∀ (p : Plank) (rest : List Plank),
        selectPartial ce ml pool = Option.some (p, rest) →
        p.cut_end = ce ∧ p.length > ml
        ∧ (∀ q ∈ pool, q.cut_end = ce → q.length > ml → q.length ≤ p.length)
        ∧ ∃ l1 l2, pool = l1 ++ p :: l2 ∧ rest = l1 ++ l2
            ∧ (∀ q ∈ l1, q.cut_end = ce → q.length > ml → q.length < p.length) := by
  constructor
  · exact selectPartial_eq_none ce ml pool
  · intro p rest h
    obtain ⟨l1, l2, hdec, hrest, hce, hml, hfirst, hmax⟩ :=
      selectPartial_eq_some ce ml pool p rest h
    exact ⟨hce, hml, hmax, l1, l2, hdec, hrest, hfirst⟩

/-- Witness for `selectPartial_correct` on the concrete `demoPool`:
the longest bottom-cut plank (id 3, length 50) is selected and spliced
out. -/
theorem selectPartial_correct_witness :
    ∃ p rest, selectPartial CutEnd.botCut 0 demoPool = Option.some (p, rest)
      ∧ p.cut_end = CutEnd.botCut ∧ p.length > 0
      ∧ (∀ q ∈ demoPool, q.cut_end = CutEnd.botCut → q.length > 0 →
          q.length ≤ p.length)
      ∧ ∃ l1 l2, demoPool = l1 ++ p :: l2 ∧ rest = l1 ++ l2 := by
  have hsel : selectPartial CutEnd.botCut 0 demoPool
      = Option.some ({ id := 3, cut_end := CutEnd.botCut, left := 0, top := 0,
                       width := 10, length := 50, permanent := false },
                     [{ id := 1, cut_end := CutEnd.botCut, left := 0, top := 0,
                        width := 10, length := 30, permanent := false },
                      { id := 2, cut_end := CutEnd.topCut, left := 0, top := 0,
                        width := 10, length := 25, permanent := false }]) := by
    with_unfolding_all decide
  obtain ⟨hce, hml, hmax, l1, l2, hdec, hrest, _⟩ :=
    (selectPartial_correct CutEnd.botCut 0 demoPool).2 _ _ hsel
  exact ⟨_, _, hsel, hce, hml, hmax, l1, l2, hdec, hrest⟩

/-- C2: for every layout computed by `Room.recomputeFloor`, the summed
column heights plus the derived `waste` equal
`planksNeeded × PLANK_LENGTH` exactly. -/
theorem waste_accounting (fuel : Nat) (r r' : Room)
    (h : Room.recomputeFloor fuel r = Option.some r') :
    (r'.columns.map Column.height).sum + Room.waste r'
      = r'.planksNeeded * r'.PLANK_LENGTH := by
  unfold Room.waste
  ring

/-- Witness for `waste_accounting` on the computed layout of the
100 × 100 square room. -/
theorem waste_accounting_witness :
    ∃ r', Room.recomputeFloor 32 square100 = Option.some r' ∧
      (r'.columns.map Column.height).sum + Room.waste r'
        = r'.planksNeeded * r'.PLANK_LENGTH := by
  cases hEq : Room.recomputeFloor 32 square100 with
  | none =>
    have hs : (Room.recomputeFloor 32 square100).isSome := by
      with_unfolding_all decide
    rw [hEq] at hs
    exact absurd hs (by decide)
  | some r' => exact ⟨r', rfl, waste_accounting 32 square100 r' hEq⟩

/-- C4 (amended): the spec's square scenario, with the waste value the
code actually produces.  Each of the 10 columns has height 100 and holds
one full plank (60) above one bottom-cut plank (40); `planksNeeded = 20`
and `cuts = 10`.  Each column's leftover is `60 − 40 − 0 = 20`, equal to
`MIN_PLANK_LENGTH`, hence wasted rather than banked (strict `>`), so
`waste = 20 × 60 − 10 × 100 = 200`, not 0. -/
theorem square100_layout :
    (Room.recomputeFloor 32 square100).map
        (fun q => q.columns.map (fun c =>
          (Column.height c, c.planks.map (fun p => (p.length, p.cut_end)))))
      = Option.some (List.replicate 10
          (100, [((60 : ℚ), CutEnd.none), ((40 : ℚ), CutEnd.botCut)]))
    ∧ (Room.recomputeFloor 32 square100).map (fun q => q.planksNeeded)
      = Option.some 20
    ∧ (Room.recomputeFloor 32 square100).map (fun q => q.cuts)
      = Option.some 10
    ∧ (Room.recomputeFloor 32 square100).map Room.waste
      = Option.some 200 := by
  refine ⟨?_, ?_, ?_, ?_⟩ <;> with_unfolding_all decide

/-- Counterexample to C4 as stated: the square scenario's computed waste
is 200, not 0. -/
theorem square100_waste_ne_zero :
    (Room.recomputeFloor 32 square100).map Room.waste = Option.some 200
    ∧ (Room.recomputeFloor 32 square100).map Room.waste ≠ Option.some 0 := by
  refine ⟨?_, ?_⟩ <;> with_unfolding_all decide

/-- C8 (amended): the column loop never executes precisely when the
starting edge `leftmost + START_LEFT` is already at or beyond
`rightmost` (true in particular for a vertex-less room, whose bounds are
the inverted sentinels); such a room yields a valid empty layout, not an
error. -/
theorem no_columns_when_start_beyond_right (fuel : Nat) (r : Room)
    (h : r.rightmost ≤ r.leftmost + r.START_LEFT) :
    ∃ r', Room.recomputeFloor fuel r = Option.some r' ∧ r'.columns = []
      ∧ r'.planksNeeded = 0 ∧ r'.cuts = 0 := by
  have hl : ¬ (initState r).l < r.rightmost := by
    simp only [initState]
    exact not_lt.mpr h
  have hloop : columnLoop r fuel (initState r) = Option.some (initState r) := by
    cases fuel with
    | zero => simp only [columnLoop, if_neg hl]
    | succ n => simp only [columnLoop, if_neg hl]
  unfold Room.recomputeFloor
  rw [hloop]
  exact ⟨_, rfl, rfl, rfl, rfl⟩

/-- Witness for `no_columns_when_start_beyond_right`: the vertex-less
room measures to inverted sentinel bounds and recomputes to an empty
layout. -/
theorem no_columns_witness :
    ∃ r', Room.recomputeFloor 3 (Room.measure blankRoom) = Option.some r'
      ∧ r'.columns = [] ∧ r'.planksNeeded = 0 ∧ r'.cuts = 0 :=
  no_columns_when_start_beyond_right 3 (Room.measure blankRoom)
    (by with_unfolding_all decide)

/-- Counterexample to C8 as stated: a positive-width room narrower than
one plank width (width 5 < `PLANK_WIDTH` 10) still gets one column, not
zero — the loop guard `l < rightmost` does not compare against the plank
width. -/
theorem narrow_room_one_column :
    room5.rightmost - room5.leftmost < room5.PLANK_WIDTH
    ∧ (Room.recomputeFloor 8 room5).map (fun q => q.columns.length)
        = Option.some 1
    ∧ (Room.recomputeFloor 8 room5).map (fun q => q.columns.length)
        ≠ Option.some 0 := by
  refine ⟨?_, ?_, ?_⟩ <;> with_unfolding_all decide

/-- C3: whenever a column ends with a fresh cut of remaining height
`h2 > 0`, the trailing plank has length `h2` and is cut at its bottom
end; the leftover `PLANK_LENGTH − h2 − CUT_THICKNESS` is banked as a
top-cut partial with the trailing plank's id exactly when it strictly
exceeds `MIN_PLANK_LENGTH` (a leftover equal to `MIN_PLANK_LENGTH` is
wasted); and a banked partial satisfies
`cut length + banked length + CUT_THICKNESS = PLANK_LENGTH`. -/
theorem trailing_cut_spec (r : Room) (st : LoopState) (col : Column)
    (startPs fps : List Plank) (y2 h2 : ℚ) (nid2 : Nat) (pool : List Plank)
    (hpos : 0 < h2) :
    (finishColumn r st col startPs fps y2 h2 nid2 pool).columns
        = st.columns ++ [{ col with planks := startPs ++ fps ++ [cutPlank r st.l y2 h2 nid2] }]
    ∧ (cutPlank r st.l y2 h2 nid2).length = h2
    ∧ (cutPlank r st.l y2 h2 nid2).cut_end = CutEnd.botCut
    ∧ (finishColumn r st col startPs fps y2 h2 nid2 pool).partials
        = probePool r st.pickPartial h2 pool ++ bankOf r st.l y2 h2 nid2
    ∧ (r.PLANK_LENGTH - h2 - r.CUT_THICKNESS > r.MIN_PLANK_LENGTH →
        bankOf r st.l y2 h2 nid2
          = [{ id := nid2, cut_end := CutEnd.topCut, left := st.l, top := y2 + h2,
               width := r.PLANK_WIDTH,
               length := r.PLANK_LENGTH - h2 - r.CUT_THICKNESS,
               permanent := false }])
    ∧ (¬ r.PLANK_LENGTH - h2 - r.CUT_THICKNESS > r.MIN_PLANK_LENGTH →
        bankOf r st.l y2 h2 nid2 = [])
    ∧ (∀ b ∈ bankOf r st.l y2 h2 nid2,
        b.id = (cutPlank r st.l y2 h2 nid2).id ∧ b.cut_end = CutEnd.topCut
        ∧ (cutPlank r st.l y2 h2 nid2).length + b.length + r.CUT_THICKNESS
            = r.PLANK_LENGTH) := by
  refine ⟨?_, rfl, rfl, ?_, ?_, ?_, ?_⟩
  · simp only [finishColumn, if_pos hpos]
  · simp only [finishColumn, if_pos hpos]
  · intro hover; simp only [bankOf, if_pos hover]
  · intro hover; simp only [bankOf, if_neg hover]
  · intro b hb
    by_cases hover : r.PLANK_LENGTH - h2 - r.CUT_THICKNESS > r.MIN_PLANK_LENGTH
    · simp only [bankOf, if_pos hover, List.mem_singleton] at hb
      subst hb
      refine ⟨rfl, rfl, ?_⟩
      simp only [cutPlank]
      ring
    · simp only [bankOf, if_neg hover] at hb
      cases hb

/-- Witness for `trailing_cut_spec`: a concrete cut of height 40 with a
60-long plank, zero kerf and floor 20 (the square scenario's numbers) —
the leftover 20 is exactly `MIN_PLANK_LENGTH` and is wasted. -/
theorem trailing_cut_spec_witness :
    (finishColumn blankRoom (initState blankRoom) (Column.new 0 10) [] []
        (100 : ℚ) (40 : ℚ) 5 []).partials
      = probePool blankRoom (initState blankRoom).pickPartial 40 []
          ++ bankOf blankRoom (initState blankRoom).l 100 40 5
    ∧ (cutPlank blankRoom (initState blankRoom).l 100 40 5).length = 40
    ∧ (cutPlank blankRoom (initState blankRoom).l 100 40 5).cut_end = CutEnd.botCut
    ∧ bankOf blankRoom (initState blankRoom).l 100 40 5 = [] := by
  obtain ⟨-, h2, h3, h4, -, h6, -⟩ :=
    trailing_cut_spec blankRoom (initState blankRoom) (Column.new 0 10) [] []
      100 40 5 [] (by with_unfolding_all decide)
  exact ⟨h4, h2, h3, h6 (by with_unfolding_all decide)⟩

/-- C9: just before a fresh cut with partial starts enabled, the probe
`selectPartial("<")` removes the longest bottom-cut partial from the
pool; a probed partial at least as long as the remaining height `h2` is
neither pushed back nor placed — it simply vanishes from the pool, whose
final contents are the spliced pool plus only freshly created top-cut
bank planks, while the new column receives only the start planks, the
full planks and the fresh bottom-cut trailing plank. -/
theorem probe_discard_spec (r : Room) (st : LoopState) (col : Column)
    (startPs fps : List Plank) (y2 h2 : ℚ) (nid2 : Nat)
    (pool rest : List Plank) (q : Plank)
    (hpick : st.pickPartial = true) (hpos : 0 < h2)
    (hsel : selectPartial CutEnd.botCut 0 pool = Option.some (q, rest)) :
    (h2 ≤ q.length → probePool r st.pickPartial h2 pool = rest)
    ∧ (q.length < h2 → probePool r st.pickPartial h2 pool = rest ++ [q])
    ∧ (finishColumn r st col startPs fps y2 h2 nid2 pool).partials
        = probePool r st.pickPartial h2 pool ++ bankOf r st.l y2 h2 nid2
    ∧ (∀ b ∈ bankOf r st.l y2 h2 nid2, b.cut_end = CutEnd.topCut)
    ∧ (finishColumn r st col startPs fps y2 h2 nid2 pool).columns
        = st.columns
            ++ [{ col with planks := startPs ++ fps ++ [cutPlank r st.l y2 h2 nid2] }]
    ∧ rest.length + 1 = pool.length := by
  refine ⟨?_, ?_, ?_, ?_, ?_, ?_⟩
  · intro hge
    simp only [probePool, hpick, if_pos trivial, hsel]
    rw [if_pos (le_trans hge (le_refl _))]
  · intro hlt
    simp only [probePool, hpick, if_pos trivial, hsel]
    rw [if_neg (not_le.mpr hlt)]
  · simp only [finishColumn, if_pos hpos]
  · intro b hb
    by_cases hover : r.PLANK_LENGTH - h2 - r.CUT_THICKNESS > r.MIN_PLANK_LENGTH
    · simp only [bankOf, if_pos hover, List.mem_singleton] at hb
      subst hb; rfl
    · simp only [bankOf, if_neg hover] at hb
      cases hb
  · simp only [finishColumn, if_pos hpos]
  · obtain ⟨l1, l2, hdec, hrest, -, -, -, -⟩ :=
      selectPartial_eq_some CutEnd.botCut 0 pool q rest hsel
    subst hdec hrest
    simp [List.length_append]
    omega

/-! Behaviour of the full-plank loop `fullFill`. -/

lemma fullFill_of_not_gt (r : Room) (n : Nat) (l y h : ℚ) (nid : Nat)
    (hle : ¬ h > r.PLANK_LENGTH) :
    fullFill r n l y h nid = Option.some ([], y, h, nid, 0) := by
  cases n with
  | zero => simp only [fullFill, if_neg hle]
  | succ m => simp only [fullFill, if_neg hle]

lemma fullFill_exact (r : Room) (hPL : 0 < r.PLANK_LENGTH) :
    ∀ (k fuel : Nat) (l y : ℚ) (nid : Nat), 1 ≤ k → k ≤ fuel →
      ∃ fps : List Plank,
        fullFill r fuel l y ((k : ℚ) * r.PLANK_LENGTH) nid
          = Option.some (fps, y + ((k : ℚ) - 1) * r.PLANK_LENGTH,
              r.PLANK_LENGTH, nid + (k - 1), k - 1)
        ∧ fps.length = k - 1
        ∧ (∀ p ∈ fps, p.length = r.PLANK_LENGTH ∧ p.cut_end = CutEnd.none) := by
  intro k
  induction k with
  | zero => intro fuel l y nid hk; exact absurd hk (by decide)
  | succ k ih =>
    intro fuel l y nid _ hfuel
    by_cases hk0 : k = 0
    · subst hk0
      have hle : ¬ (((0 + 1 : Nat) : ℚ) * r.PLANK_LENGTH > r.PLANK_LENGTH) := by
        push_cast
        rw [one_mul]
        exact lt_irrefl _
      refine ⟨[], ?_, rfl, by intro p hp; cases hp⟩
      have hy : y + (((0 + 1 : Nat) : ℚ) - 1) * r.PLANK_LENGTH = y := by
        push_cast
        ring
      have hh : ((0 + 1 : Nat) : ℚ) * r.PLANK_LENGTH = r.PLANK_LENGTH := by
        push_cast
        ring
      rw [fullFill_of_not_gt r fuel l y _ nid hle, hy, hh]
      norm_num
    · have hk1 : 1 ≤ k := Nat.one_le_iff_ne_zero.mpr hk0
      obtain ⟨m, rfl⟩ : ∃ m, fuel = m + 1 := by
        cases fuel with
        | zero => omega
        | succ m => exact ⟨m, rfl⟩
      have hkpos : (0 : ℚ) < (k : ℚ) := by exact_mod_cast Nat.pos_of_ne_zero hk0
      have hgt : ((k + 1 : Nat) : ℚ) * r.PLANK_LENGTH > r.PLANK_LENGTH := by
        push_cast
        nlinarith [mul_pos hkpos hPL]
      have hsub : ((k + 1 : Nat) : ℚ) * r.PLANK_LENGTH - r.PLANK_LENGTH
          = ((k : Nat) : ℚ) * r.PLANK_LENGTH := by
        push_cast
        ring
      obtain ⟨fps, hfill, hlen, hprops⟩ :=
        ih m l (y + r.PLANK_LENGTH) (nid + 1) hk1 (by omega)
      refine ⟨{ id := nid, cut_end := CutEnd.none, left := l, top := y,
                width := r.PLANK_WIDTH, length := r.PLANK_LENGTH,
                permanent := false } :: fps, ?_, by simp [hlen]; omega, ?_⟩
      · have hy : y + (((k + 1 : Nat) : ℚ) - 1) * r.PLANK_LENGTH
            = (y + r.PLANK_LENGTH) + ((k : ℚ) - 1) * r.PLANK_LENGTH := by
          push_cast
          ring
        have hnid : nid + (k + 1 - 1) = (nid + 1) + (k - 1) := by omega
        have hcnt : k + 1 - 1 = (k - 1) + 1 := by omega
        rw [hy, hnid, hcnt]
        simp only [fullFill]
        rw [if_pos hgt, hsub, hfill]
      · intro p hp
        rcases List.mem_cons.mp hp with rfl | hp'
        · exact ⟨rfl, rfl⟩
        · exact hprops p hp'

lemma innerFuel_mul (PL : ℚ) (hPL : 0 < PL) (k : Nat) (hk : 1 ≤ k) :
    innerFuel PL ((k : ℚ) * PL) = k := by
  unfold innerFuel
  have h1 : ((k : ℚ) * PL - PL) / PL = (k : ℚ) - 1 := by
    field_simp
    ring
  have h2 : ⌈(k : ℚ) - 1⌉ = (k : ℤ) - 1 := by
    have h3 : ((k : ℚ) - 1) = (((k : ℤ) - 1 : ℤ) : ℚ) := by push_cast; ring
    rw [h3, Int.ceil_intCast]
  rw [h1, h2]
  omega

/-- C6 (amended): a column attempt not started with a partial, with no
remaining `START_TOP` offset, whose clipped height is exactly
`k × PLANK_LENGTH` (`k ≥ 1`, positive plank length, non-negative kerf and
minimum), is filled with `k − 1` full planks plus a trailing plank of
exactly `PLANK_LENGTH` — which the code still cuts: the column
contributes one cut, not zero.  Its waste contribution is zero (the `k`
consumed planks exactly cover the height) and nothing is banked. -/
theorem exact_multiple_column (r : Room) (st : LoopState) (k : Nat)
    (hsel : startSel r st = Option.none)
    (hoff : st.firstOffset = 0)
    (hh : hStart r st = (k : ℚ) * r.PLANK_LENGTH)
    (hk : 1 ≤ k) (hPL : 0 < r.PLANK_LENGTH)
    (hCT : 0 ≤ r.CUT_THICKNESS) (hMIN : 0 ≤ r.MIN_PLANK_LENGTH) :
    ∃ st', stepColumn r st = Option.some st'
      ∧ st'.cuts = st.cuts + 1
      ∧ st'.planksNeeded = st.planksNeeded + k
      ∧ st'.partials = probePool r st.pickPartial r.PLANK_LENGTH st.partials
      ∧ st'.l = st.l + r.PLANK_WIDTH
      ∧ (∃ c, st'.columns = st.columns ++ [c]
          ∧ c.planks.length = k
          ∧ (∀ p ∈ c.planks, p.length = r.PLANK_LENGTH)
          ∧ c.planks.getLast? = Option.some (cutPlank r st.l
              (yStart r st + ((k : ℚ) - 1) * r.PLANK_LENGTH) r.PLANK_LENGTH
              (st.nextId + (k - 1)))
          ∧ (∀ p ∈ c.planks.dropLast, p.cut_end = CutEnd.none))
      ∧ ((st'.planksNeeded : ℚ) - (st.planksNeeded : ℚ)) * r.PLANK_LENGTH
          = Column.height (colAt r st) := by
  have hfuel : innerFuel r.PLANK_LENGTH (hStart r st) = k := by
    rw [hh]; exact innerFuel_mul _ hPL k hk
  obtain ⟨fps, hfill, hlen, hprops⟩ :=
    fullFill_exact r hPL k k st.l (yStart r st) st.nextId hk (le_refl k)
  have hstep : stepColumn r st = Option.some (finishColumn r st (colAt r st) [] fps
      (yStart r st + ((k : ℚ) - 1) * r.PLANK_LENGTH) r.PLANK_LENGTH
      (st.nextId + (k - 1)) st.partials) := by
    unfold stepColumn
    rw [hsel, hfuel, hh, hfill]
  have hbank : bankOf r st.l (yStart r st + ((k : ℚ) - 1) * r.PLANK_LENGTH)
      r.PLANK_LENGTH (st.nextId + (k - 1)) = [] := by
    unfold bankOf
    rw [if_neg]
    intro hcon
    have : r.PLANK_LENGTH - r.PLANK_LENGTH - r.CUT_THICKNESS ≤ r.MIN_PLANK_LENGTH := by
      linarith
    exact absurd hcon (not_lt.mpr this)
  refine ⟨_, hstep, ?_, ?_, ?_, ?_, ?_, ?_⟩
  · simp only [finishColumn, if_pos hPL]
  · simp only [finishColumn, if_pos hPL]
    omega
  · simp only [finishColumn, if_pos hPL, hbank, List.append_nil]
  · simp only [finishColumn, if_pos hPL]
  · refine ⟨{ colAt r st with planks := [] ++ fps
        ++ [cutPlank r st.l (yStart r st + ((k : ℚ) - 1) * r.PLANK_LENGTH)
             r.PLANK_LENGTH (st.nextId + (k - 1))] },
      by simp only [finishColumn, if_pos hPL], ?_, ?_, ?_, ?_⟩
    · simp only [List.nil_append, List.length_append, List.length_singleton, hlen]
      omega
    · intro p hp
      simp only [List.nil_append] at hp
      rcases List.mem_append.mp hp with hp' | hp'
      · exact (hprops p hp').1
      · rw [List.mem_singleton.mp hp']
        rfl
    · simp only [List.nil_append]
      exact List.getLast?_concat _
    · intro p hp
      simp only [List.nil_append, List.dropLast_concat] at hp
      exact (hprops p hp).2
  · simp only [finishColumn, if_pos hPL]
    have hht : Column.height (colAt r st) = (k : ℚ) * r.PLANK_LENGTH := by
      have hcopy := hh
      unfold hStart at hcopy
      rw [hoff, sub_zero] at hcopy
      exact hcopy
    have hflen : (fps.length : ℚ) = (k : ℚ) - 1 := by
      rw [hlen, Nat.cast_sub hk, Nat.cast_one]
    rw [hht]
    push_cast
    rw [hflen]
    ring

/-- Witness for `exact_multiple_column`: the single 120-high column of
`room120` is exactly two plank lengths and yields one cut. -/
theorem exact_multiple_column_witness :
    ∃ st', stepColumn room120 state120 = Option.some st'
      ∧ st'.cuts = state120.cuts + 1
      ∧ st'.planksNeeded = state120.planksNeeded + 2
      ∧ st'.partials = probePool room120 state120.pickPartial
          room120.PLANK_LENGTH state120.partials
      ∧ st'.l = state120.l + room120.PLANK_WIDTH
      ∧ (∃ c, st'.columns = state120.columns ++ [c]
          ∧ c.planks.length = 2
          ∧ (∀ p ∈ c.planks, p.length = room120.PLANK_LENGTH)
          ∧ c.planks.getLast? = Option.some (cutPlank room120 state120.l
              (yStart room120 state120 + ((2 : ℚ) - 1) * room120.PLANK_LENGTH)
              room120.PLANK_LENGTH (state120.nextId + (2 - 1)))
          ∧ (∀ p ∈ c.planks.dropLast, p.cut_end = CutEnd.none))
      ∧ ((st'.planksNeeded : ℚ) - (state120.planksNeeded : ℚ)) * room120.PLANK_LENGTH
          = Column.height (colAt room120 state120) := by
  have h := exact_multiple_column room120 state120 2
    (by with_unfolding_all decide) (by with_unfolding_all decide)
    (by with_unfolding_all decide) (by decide) (by with_unfolding_all decide)
    (by with_unfolding_all decide) (by with_unfolding_all decide)
  exact_mod_cast h

/-- Counterexample to C6 as stated: in `room60` every column's clipped
height is exactly one `PLANK_LENGTH`, yet the run performs 10 cuts, not
zero — the full-plank loop is strict (`h > PLANK_LENGTH`), so a column
that is an exact multiple ends with `h = PLANK_LENGTH > 0` and the code
cuts (and counts) a full-length trailing plank. -/
theorem exact_multiple_has_cut :
    (Room.recomputeFloor 32 room60).map (fun q => q.columns.map Column.height)
      = Option.some (List.replicate 10 room60.PLANK_LENGTH)
    ∧ (Room.recomputeFloor 32 room60).map (fun q => q.cuts) = Option.some 10
    ∧ (Room.recomputeFloor 32 room60).map (fun q => q.cuts) ≠ Option.some 0 := by
  refine ⟨?_, ?_, ?_⟩ <;> with_unfolding_all decide

/-- C1 (amended): when the column attempt started with a partial and the
remnant satisfies `0 < h2 < MIN_PLANK_LENGTH`, the step pushes the
partial (with its just-updated position) to the back of the pool, keeps
the columns, counters and `l` unchanged, and disables partial starts for
the retry of the same `x`; a step with partial starts disabled can never
fire the retry again and always advances `l` by `PLANK_WIDTH`. -/
theorem retry_effects (r : Room) (st : LoopState) (p : Plank)
    (pool1 fps : List Plank) (y2 h2 : ℚ) (nid2 k : Nat)
    (hsel : startSel r st = Option.some (p, pool1))
    (hfill : fullFill r (innerFuel r.PLANK_LENGTH (hStart r st - p.length)) st.l
        (yStart r st + p.length) (hStart r st - p.length) st.nextId
        = Option.some (fps, y2, h2, nid2, k))
    (hlow : 0 < h2) (hhigh : h2 < r.MIN_PLANK_LENGTH) :
    stepColumn r st = Option.some { st with
        partials := pool1 ++ [{ p with left := st.l, top := yStart r st }],
        pickPartial := false, firstOffset := 0, nextId := nid2 }
    ∧ (∀ st0 st1 : LoopState, st0.pickPartial = false →
        stepColumn r st0 = Option.some st1 →
        st1.l = st0.l + r.PLANK_WIDTH ∧ st1.pickPartial = true
          ∧ st1.columns.length = st0.columns.length + 1) := by
  constructor
  · simp only [stepColumn, hsel, hfill]
    rw [if_pos ⟨hlow, hhigh⟩]
  · intro st0 st1 hpick hstep
    have hsel0 : startSel r st0 = Option.none := by
      unfold startSel
      rw [hpick]
      simp
    unfold stepColumn at hstep
    rw [hsel0] at hstep
    cases hfill0 : fullFill r (innerFuel r.PLANK_LENGTH (hStart r st0)) st0.l
        (yStart r st0) (hStart r st0) st0.nextId with
    | none => rw [hfill0] at hstep; exact Option.noConfusion hstep
    | some res =>
      rw [hfill0] at hstep
      obtain ⟨fps0, y0, h0, nid0, k0⟩ := res
      simp only [Option.some.injEq] at hstep
      subst hstep
      by_cases hpos : 0 < h0
      · refine ⟨?_, ?_, ?_⟩ <;> simp [finishColumn, hpos]
      · refine ⟨?_, ?_, ?_⟩ <;> simp [finishColumn, hpos]

/-- Witness for `retry_effects`: the height-15 column of `room15`
attempted from `retryState` (pool holding a 10-long top-cut partial)
leaves remnant `5` with `0 < 5 < 20` and fires the retry. -/
theorem retry_effects_witness :
    stepColumn room15 retryState = Option.some
      { l := retryState.l, firstOffset := 0, pickPartial := false,
        partials := [] ++ [{ id := 1, cut_end := CutEnd.topCut,
                             left := retryState.l,
                             top := yStart room15 retryState, width := 10,
                             length := 10, permanent := false }],
        nextId := 2, columns := retryState.columns,
        planksNeeded := retryState.planksNeeded, cuts := retryState.cuts }
    ∧ (∀ st0 st1 : LoopState, st0.pickPartial = false →
        stepColumn room15 st0 = Option.some st1 →
        st1.l = st0.l + room15.PLANK_WIDTH ∧ st1.pickPartial = true
          ∧ st1.columns.length = st0.columns.length + 1) :=
  retry_effects room15 retryState
    { id := 1, cut_end := CutEnd.topCut, left := 0, top := 0, width := 10,
      length := 10, permanent := false }
    [] [] (yStart room15 retryState + 10) (hStart room15 retryState - 10) 2 0
    (by with_unfolding_all decide)
    (by with_unfolding_all decide)
    (by with_unfolding_all decide) (by with_unfolding_all decide)

/-- Counterexample to C1's parenthetical "the retry begins with a full
plank": retrying the 15-high column lays no full plank at all — the
retried column consists of a single cut plank of length 15, shorter than
`PLANK_LENGTH = 60`. -/
theorem retry_not_full_start :
    (stepColumn room15 retryState).map
        (fun s => (s.l, s.pickPartial, s.columns.length))
      = Option.some (0, false, 0)
    ∧ ((stepColumn room15 retryState).bind (stepColumn room15)).map
        (fun s => s.columns.map (fun c =>
          c.planks.map (fun p => (p.length, p.cut_end))))
      = Option.some [[((15 : ℚ), CutEnd.botCut)]]
    ∧ (15 : ℚ) ≠ room15.PLANK_LENGTH := by
  refine ⟨?_, ?_, ?_⟩ <;> with_unfolding_all decide

/-- Witness for `probe_discard_spec`: probing `demoPool` before a cut of
height 40 removes the 50-long bottom-cut plank for good (the pool keeps
only the other two planks). -/
theorem probe_discard_spec_witness :
    probePool blankRoom (initState blankRoom).pickPartial 40 demoPool
      = [{ id := 1, cut_end := CutEnd.botCut, left := 0, top := 0,
           width := 10, length := 30, permanent := false },
         { id := 2, cut_end := CutEnd.topCut, left := 0, top := 0,
           width := 10, length := 25, permanent := false }]
    ∧ ([{ id := 1, cut_end := CutEnd.botCut, left := 0, top := 0,
          width := 10, length := 30, permanent := false },
        { id := 2, cut_end := CutEnd.topCut, left := 0, top := 0,
          width := 10, length := 25, permanent := false }] : List Plank).length + 1
        = demoPool.length := by
  obtain ⟨h1, -, -, -, -, h6⟩ :=
    probe_discard_spec blankRoom (initState blankRoom) (Column.new 0 10) [] []
      100 40 5 demoPool
      [{ id := 1, cut_end := CutEnd.botCut, left := 0, top := 0,
         width := 10, length := 30, permanent := false },
       { id := 2, cut_end := CutEnd.topCut, left := 0, top := 0,
         width := 10, length := 25, permanent := false }]
      { id := 3, cut_end := CutEnd.botCut, left := 0, top := 0,
        width := 10, length := 50, permanent := false }
      (by with_unfolding_all decide) (by with_unfolding_all decide)
      (by with_unfolding_all decide)
  exact ⟨h1 (by with_unfolding_all decide), h6⟩

/-! Termination of the column loop. -/

lemma innerFuel_decrease (PL h : ℚ) (hPL : 0 < PL) (hgt : h > PL) :
    innerFuel PL (h - PL) + 1 = innerFuel PL h := by
  unfold innerFuel
  have hdiv : (h - PL - PL) / PL = (h - PL) / PL - 1 := by
    field_simp
  rw [hdiv, Int.ceil_sub_one]
  have hpos : 0 < ⌈(h - PL) / PL⌉ :=
    Int.ceil_pos.mpr (div_pos (by linarith) hPL)
  omega

lemma fullFill_isSome (r : Room) (hPL : 0 < r.PLANK_LENGTH) :
    ∀ (n : Nat) (l y h : ℚ) (nid : Nat), innerFuel r.PLANK_LENGTH h ≤ n →
      (fullFill r n l y h nid).isSome := by
  intro n
  induction n with
  | zero =>
    intro l y h nid hle
    exact absurd hle (by simp [innerFuel])
  | succ n ih =>
    intro l y h nid hle
    by_cases hgt : h > r.PLANK_LENGTH
    · have hdec : innerFuel r.PLANK_LENGTH (h - r.PLANK_LENGTH) ≤ n := by
        have := innerFuel_decrease r.PLANK_LENGTH h hPL hgt
        omega
      have hrec := ih l (y + r.PLANK_LENGTH) (h - r.PLANK_LENGTH) (nid + 1) hdec
      simp only [fullFill, if_pos hgt]
      cases hres : fullFill r n l (y + r.PLANK_LENGTH) (h - r.PLANK_LENGTH) (nid + 1) with
      | none => rw [hres] at hrec; exact absurd hrec (by simp)
      | some res =>
        obtain ⟨ps, y', h', nid', k⟩ := res
        simp
    · rw [fullFill_of_not_gt r (n + 1) l y h nid hgt]
      simp

lemma startSel_some_pick (r : Room) (st : LoopState) (pr : Plank × List Plank)
    (hsel : startSel r st = Option.some pr) : st.pickPartial = true := by
  unfold startSel at hsel
  cases hb : st.pickPartial with
  | false => rw [hb] at hsel; simp at hsel
  | true => rfl

lemma stepColumn_isSome (r : Room) (hPL : 0 < r.PLANK_LENGTH) (st : LoopState) :
    (stepColumn r st).isSome := by
  unfold stepColumn
  cases hsel : startSel r st with
  | some pr =>
    obtain ⟨p, pool1⟩ := pr
    dsimp only
    have hs := fullFill_isSome r hPL
      (innerFuel r.PLANK_LENGTH (hStart r st - p.length)) st.l
      (yStart r st + p.length) (hStart r st - p.length) st.nextId (le_refl _)
    cases hres : fullFill r (innerFuel r.PLANK_LENGTH (hStart r st - p.length)) st.l
        (yStart r st + p.length) (hStart r st - p.length) st.nextId with
    | none => rw [hres] at hs; exact absurd hs (by simp)
    | some res =>
      obtain ⟨fps, y2, h2, nid2, k⟩ := res
      dsimp only
      split <;> rfl
  | none =>
    dsimp only
    have hs := fullFill_isSome r hPL
      (innerFuel r.PLANK_LENGTH (hStart r st)) st.l
      (yStart r st) (hStart r st) st.nextId (le_refl _)
    cases hres : fullFill r (innerFuel r.PLANK_LENGTH (hStart r st)) st.l
        (yStart r st) (hStart r st) st.nextId with
    | none => rw [hres] at hs; exact absurd hs (by simp)
    | some res =>
      obtain ⟨fps, y2, h2, nid2, k⟩ := res
      rfl

lemma stepColumn_advance_or_retry (r : Room) (st st' : LoopState)
    (hstep : stepColumn r st = Option.some st') :
    (st'.l = st.l + r.PLANK_WIDTH ∧ st'.pickPartial = true)
    ∨ (st.pickPartial = true ∧ st'.pickPartial = false ∧ st'.l = st.l) := by
  unfold stepColumn at hstep
  cases hsel : startSel r st with
  | some pr =>
    obtain ⟨p, pool1⟩ := pr
    rw [hsel] at hstep
    dsimp only at hstep
    cases hres : fullFill r (innerFuel r.PLANK_LENGTH (hStart r st - p.length)) st.l
        (yStart r st + p.length) (hStart r st - p.length) st.nextId with
    | none => rw [hres] at hstep; exact Option.noConfusion hstep
    | some res =>
      rw [hres] at hstep
      obtain ⟨fps, y2, h2, nid2, k⟩ := res
      dsimp only at hstep
      by_cases hret : 0 < h2 ∧ h2 < r.MIN_PLANK_LENGTH
      · rw [if_pos hret] at hstep
        simp only [Option.some.injEq] at hstep
        subst hstep
        exact Or.inr ⟨startSel_some_pick r st (p, pool1) hsel, rfl, rfl⟩
      · rw [if_neg hret] at hstep
        simp only [Option.some.injEq] at hstep
        subst hstep
        by_cases hpos : 0 < h2
        · exact Or.inl (by simp [finishColumn, hpos])
        · exact Or.inl (by simp [finishColumn, hpos])
  | none =>
    rw [hsel] at hstep
    dsimp only at hstep
    cases hres : fullFill r (innerFuel r.PLANK_LENGTH (hStart r st)) st.l
        (yStart r st) (hStart r st) st.nextId with
    | none => rw [hres] at hstep; exact Option.noConfusion hstep
    | some res =>
      rw [hres] at hstep
      obtain ⟨fps, y2, h2, nid2, k⟩ := res
      simp only [Option.some.injEq] at hstep
      subst hstep
      by_cases hpos : 0 < h2
      · exact Or.inl (by simp [finishColumn, hpos])
      · exact Or.inl (by simp [finishColumn, hpos])

lemma ceil_advance (R l PW : ℚ) (hW : 0 < PW) (hlt : l < R) :
    1 ≤ (⌈(R - l) / PW⌉).toNat
    ∧ (⌈(R - (l + PW)) / PW⌉).toNat = (⌈(R - l) / PW⌉).toNat - 1 := by
  have hpos : 0 < ⌈(R - l) / PW⌉ :=
    Int.ceil_pos.mpr (div_pos (by linarith) hW)
  constructor
  · omega
  · have hdiv : (R - (l + PW)) / PW = (R - l) / PW - 1 := by
      field_simp
      ring
    rw [hdiv, Int.ceil_sub_one]
    omega

lemma stepColumn_measure (r : Room) (hW : 0 < r.PLANK_WIDTH)
    (st st' : LoopState) (hlt : st.l < r.rightmost)
    (hstep : stepColumn r st = Option.some st') :
    loopMeasure r st' < loopMeasure r st := by
  obtain ⟨h1, h2⟩ := ceil_advance r.rightmost st.l r.PLANK_WIDTH hW hlt
  rcases stepColumn_advance_or_retry r st st' hstep with ⟨hl, hp⟩ | ⟨hp0, hp, hl⟩
  · unfold loopMeasure
    rw [hl, hp, h2]
    cases hb : st.pickPartial
    all_goals simp only [hb, if_true, if_false, Bool.false_eq_true]
    all_goals omega
  · unfold loopMeasure
    rw [hl, hp, hp0]
    simp only [if_true, if_false, Bool.false_eq_true]
    omega

lemma columnLoop_isSome (r : Room) (hW : 0 < r.PLANK_WIDTH)
    (hPL : 0 < r.PLANK_LENGTH) :
    ∀ (n : Nat) (st : LoopState), loopMeasure r st ≤ n →
      (columnLoop r n st).isSome := by
  intro n
  induction n with
  | zero =>
    intro st hle
    by_cases hlt : st.l < r.rightmost
    · obtain ⟨h1, -⟩ := ceil_advance r.rightmost st.l r.PLANK_WIDTH hW hlt
      exfalso
      unfold loopMeasure at hle
      omega
    · simp only [columnLoop, if_neg hlt]
      rfl
  | succ n ih =>
    intro st hle
    by_cases hlt : st.l < r.rightmost
    · simp only [columnLoop, if_pos hlt]
      have hs := stepColumn_isSome r hPL st
      cases hstep : stepColumn r st with
      | none => rw [hstep] at hs; exact absurd hs (by simp)
      | some st' =>
        have hdec := stepColumn_measure r hW st st' hlt hstep
        exact ih st' (by omega)
    · simp only [columnLoop, if_neg hlt]
      rfl

/-- C10 (amended): for every room with positive `PLANK_WIDTH` *and*
positive `PLANK_LENGTH`, `recomputeFloor` terminates — some fuel
suffices.  Moreover each step either advances `l` by `PLANK_WIDTH`
re-enabling partial starts, or is a retry, which requires the column to
have started with a partial (`pickPartial = true`) and leaves `l` in
place with partial starts disabled; a step with partial starts disabled
always advances, so each `x` is attempted at most twice. -/
theorem recompute_terminates (r : Room) (hW : 0 < r.PLANK_WIDTH)
    (hPL : 0 < r.PLANK_LENGTH) :
    (∃ n, (Room.recomputeFloor n r).isSome)
    ∧ (∀ st st' : LoopState, stepColumn r st = Option.some st' →
        (st'.l = st.l + r.PLANK_WIDTH ∧ st'.pickPartial = true)
        ∨ (st.pickPartial = true ∧ st'.pickPartial = false ∧ st'.l = st.l))
    ∧ (∀ st st' : LoopState, st.pickPartial = false →
        stepColumn r st = Option.some st' →
        st'.l = st.l + r.PLANK_WIDTH ∧ st'.pickPartial = true) := by
  refine ⟨⟨loopMeasure r (initState r), ?_⟩, ?_, ?_⟩
  · have hs := columnLoop_isSome r hW hPL (loopMeasure r (initState r))
      (initState r) (le_refl _)
    unfold Room.recomputeFloor
    cases hloop : columnLoop r (loopMeasure r (initState r)) (initState r) with
    | none => rw [hloop] at hs; exact absurd hs (by simp)
    | some st => rfl
  · exact fun st st' h => stepColumn_advance_or_retry r st st' h
  · intro st st' hpick hstep
    rcases stepColumn_advance_or_retry r st st' hstep with h | ⟨hp0, -, -⟩
    · exact h
    · rw [hpick] at hp0
      exact Bool.noConfusion hp0

/-- Witness for `recompute_terminates` at the square scenario room. -/
theorem recompute_terminates_witness :
    ∃ n, (Room.recomputeFloor n square100).isSome :=
  (recompute_terminates square100 (by with_unfolding_all decide)
    (by with_unfolding_all decide)).1

/-- Counterexample to C10 as stated: positive `PLANK_WIDTH` alone does
not guarantee termination.  With `PLANK_LENGTH = 0` the full-plank loop
`while (h > PLANK_LENGTH)` never decreases `h` on the 100-high column,
so no fuel ever completes the recompute. -/
theorem zero_plank_length_diverges :
    0 < roomPL0.PLANK_WIDTH ∧ ¬ ∃ n, (Room.recomputeFloor n roomPL0).isSome := by
  constructor
  · with_unfolding_all decide
  · rintro ⟨n, hn⟩
    have hstep : stepColumn roomPL0 (initState roomPL0) = Option.none := by
      with_unfolding_all decide
    have hlt : (initState roomPL0).l < roomPL0.rightmost := by
      with_unfolding_all decide
    have hloop : columnLoop roomPL0 n (initState roomPL0) = Option.none := by
      cases n with
      | zero => simp only [columnLoop, if_pos hlt]
      | succ m => simp only [columnLoop, if_pos hlt, hstep]
    unfold Room.recomputeFloor at hn
    rw [hloop] at hn
    exact absurd hn (by simp)

/-! Invariants of the shuffle engine. -/

lemma list_set_of_get? {α : Type} (l : List α) (i : Nat) (a : α)
    (h : l.get? i = Option.some a) : l.set i a = l := by
  apply List.ext_getElem?
  intro j
  rw [List.getElem?_set]
  by_cases hij : i = j
  · subst hij
    rw [if_pos rfl]
    have hi : i < l.length := by
      by_contra hni
      rw [List.get?_eq_getElem?, List.getElem?_eq_none (le_of_not_lt hni)] at h
      exact Option.noConfusion h
    rw [if_pos hi, ← List.get?_eq_getElem?, h]
  · rw [if_neg hij]

lemma setLeft_height (c : Column) (x : ℚ) :
    Column.height (setLeft c x) = Column.height c := rfl

lemma setLeft_planks_length (c : Column) (x : ℚ) :
    (setLeft c x).planks.length = c.planks.length := by
  simp [setLeft, Column.lineUpPlanks]

lemma swapLefts_map {β : Type} (f : Column → β)
    (hf : ∀ c x, f (setLeft c x) = f c)
    (cols : List Column) (i j : Nat) :
    (swapLefts cols i j).map f = cols.map f := by
  unfold swapLefts
  cases hgi : cols.get? i with
  | none => rfl
  | some ci =>
    cases hgj : cols.get? j with
    | none => rfl
    | some cj =>
      dsimp only
      rw [List.map_set, List.map_set, hf, hf]
      have hmi : (cols.map f).get? i = Option.some (f ci) := by
        rw [List.get?_map, hgi]
        rfl
      rw [list_set_of_get? (cols.map f) i (f ci) hmi]
      have hmj : (cols.map f).get? j = Option.some (f cj) := by
        rw [List.get?_map, hgj]
        rfl
      rw [list_set_of_get? (cols.map f) j (f cj) hmj]

lemma swapPhase_map {β : Type} (f : Column → β)
    (hf : ∀ c x, f (setLeft c x) = f c) :
    ∀ (swaps : List (Nat × Nat)) (cols : List Column),
      (swapPhase swaps cols).map f = cols.map f := by
  intro swaps
  induction swaps with
  | nil => intro cols; rfl
  | cons s ss ih =>
    intro cols
    show (swapPhase ss (swapLefts cols s.1 s.2)).map f = cols.map f
    rw [ih (swapLefts cols s.1 s.2), swapLefts_map f hf]

lemma sortColumns_perm (cols : List Column) : (sortColumns cols).Perm cols :=
  List.perm_insertionSort leftLE cols

lemma sortColumns_sorted (cols : List Column) :
    List.Sorted leftLE (sortColumns cols) :=
  List.sorted_insertionSort leftLE cols

lemma renumberPlanks_sim (m : List (Nat × Nat)) (next : Nat) (ps : List Plank) :
    (renumberPlanks m next ps).1 = (renumberIds m next (ps.map (fun p => p.id))).1
    ∧ (renumberPlanks m next ps).2.1
        = (renumberIds m next (ps.map (fun p => p.id))).2.1
    ∧ (renumberPlanks m next ps).2.2.map (fun p => p.id)
        = (renumberIds m next (ps.map (fun p => p.id))).2.2
    ∧ (renumberPlanks m next ps).2.2.map (fun p => { p with id := 0 })
        = ps.map (fun p => { p with id := 0 })
    ∧ (renumberPlanks m next ps).2.2.length = ps.length := by
  induction ps generalizing m next with
  | nil => exact ⟨rfl, rfl, rfl, rfl, rfl⟩
  | cons p ps ih =>
    simp only [renumberPlanks, renumberIds, List.map_cons]
    cases hf : m.find? (fun e => e.1 == p.id) with
    | some e =>
      obtain ⟨h1, h2, h3, h4, h5⟩ := ih m next
      exact ⟨h1, h2, by simp [h3], by simp [h4], by simp [h5]⟩
    | none =>
      obtain ⟨h1, h2, h3, h4, h5⟩ := ih (m ++ [(p.id, next)]) (next + 1)
      exact ⟨h1, h2, by simp [h3], by simp [h4], by simp [h5]⟩

lemma renumberIds_append (m : List (Nat × Nat)) (next : Nat)
    (xs ys : List Nat) :
    renumberIds m next (xs ++ ys)
      = ((renumberIds (renumberIds m next xs).1 (renumberIds m next xs).2.1 ys).1,
         (renumberIds (renumberIds m next xs).1 (renumberIds m next xs).2.1 ys).2.1,
         (renumberIds m next xs).2.2
           ++ (renumberIds (renumberIds m next xs).1 (renumberIds m next xs).2.1 ys).2.2) := by
  induction xs generalizing m next with
  | nil => simp [renumberIds]
  | cons k ks ih =>
    simp only [List.cons_append, renumberIds]
    cases hf : m.find? (fun e => e.1 == k) with
    | some e => simp [ih m next]
    | none => simp [ih (m ++ [(k, next)]) (next + 1)]

lemma flatIds_cons (c : Column) (cs : List Column) :
    flatIds (c :: cs) = c.planks.map (fun p => p.id) ++ flatIds cs := by
  simp [flatIds]

lemma renumberCols_sim (m : List (Nat × Nat)) (next : Nat) (cs : List Column) :
    (renumberCols m next cs).1 = (renumberIds m next (flatIds cs)).1
    ∧ (renumberCols m next cs).2.1 = (renumberIds m next (flatIds cs)).2.1
    ∧ flatIds (renumberCols m next cs).2.2 = (renumberIds m next (flatIds cs)).2.2
    ∧ (renumberCols m next cs).2.2.map Column.height = cs.map Column.height
    ∧ (renumberCols m next cs).2.2.map (fun c => c.left) = cs.map (fun c => c.left)
    ∧ (renumberCols m next cs).2.2.map (fun c => c.planks.length)
        = cs.map (fun c => c.planks.length) := by
  induction cs generalizing m next with
  | nil => exact ⟨rfl, rfl, rfl, rfl, rfl, rfl⟩
  | cons c cs ih =>
    obtain ⟨p1, p2, p3, p4, p5⟩ := renumberPlanks_sim m next c.planks
    obtain ⟨h1, h2, h3, h4, h5, h6⟩ :=
      ih (renumberPlanks m next c.planks).1 (renumberPlanks m next c.planks).2.1
    refine ⟨?_, ?_, ?_, ?_, ?_, ?_⟩
    · simp only [renumberCols]
      rw [flatIds_cons, renumberIds_append, ← p1, ← p2]
      exact h1
    · simp only [renumberCols]
      rw [flatIds_cons, renumberIds_append, ← p1, ← p2]
      exact h2
    · simp only [renumberCols, flatIds_cons]
      rw [renumberIds_append, ← p1, ← p2, ← p3]
      rw [h3, p1, p2]
    · simp only [renumberCols, List.map_cons]
      rw [h4]
      all_goals rfl
    · simp only [renumberCols, List.map_cons]
      rw [h5]
      all_goals rfl
    · simp only [renumberCols, List.map_cons]
      rw [h6, p5]
      all_goals rfl

lemma lookupV_append_left (m δ : List (Nat × Nat)) (k : Nat) (e : Nat × Nat)
    (hf : m.find? (fun x => x.1 == k) = Option.some e) :
    lookupV (m ++ δ) k = e.2 := by
  unfold lookupV
  rw [List.find?_append, hf]
  rfl

lemma lookupV_append_right (m δ : List (Nat × Nat)) (k v : Nat)
    (hf : m.find? (fun x => x.1 == k) = Option.none) :
    lookupV (m ++ (k, v) :: δ) k = v := by
  unfold lookupV
  rw [List.find?_append, hf, Option.none_or, List.find?_cons_of_pos]
  simp

lemma find?_none_not_mem (m : List (Nat × Nat)) (k : Nat)
    (hf : m.find? (fun x => x.1 == k) = Option.none) :
    k ∉ m.map Prod.fst := by
  intro hk
  obtain ⟨e, he, hek⟩ := List.mem_map.mp hk
  have hne := List.find?_eq_none.mp hf e he
  apply hne
  simp [hek]

lemma find?_some_mem (m : List (Nat × Nat)) (k : Nat) (e : Nat × Nat)
    (hf : m.find? (fun x => x.1 == k) = Option.some e) :
    e ∈ m ∧ e.1 = k :=
  ⟨List.mem_of_find?_eq_some hf, by
    have := List.find?_some hf
    simpa using this⟩

lemma renumberIds_spec :
    ∀ (ids : List Nat) (m : List (Nat × Nat)) (next : Nat),
      (m.map Prod.fst).Nodup →
      m.map Prod.snd = List.range' 1 m.length →
      next = m.length + 1 →
      ((renumberIds m next ids).1.map Prod.fst = firstDedup (m.map Prod.fst) ids)
      ∧ ((renumberIds m next ids).1.map Prod.snd
          = List.range' 1 (renumberIds m next ids).1.length)
      ∧ ((renumberIds m next ids).1.map Prod.fst).Nodup
      ∧ ((renumberIds m next ids).2.1 = (renumberIds m next ids).1.length + 1)
      ∧ (∃ δ, (renumberIds m next ids).1 = m ++ δ)
      ∧ ((renumberIds m next ids).2.2 = ids.map (lookupV (renumberIds m next ids).1))
      ∧ (∀ k ∈ ids, k ∈ (renumberIds m next ids).1.map Prod.fst) := by
  intro ids
  induction ids with
  | nil =>
    intro m next h1 h2 h3
    exact ⟨rfl, by simpa using h2, h1, by simpa using h3, ⟨[], by simp [renumberIds]⟩, rfl,
      fun k hk => absurd hk (List.not_mem_nil k)⟩
  | cons k ks ih =>
    intro m next h1 h2 h3
    simp only [renumberIds]
    cases hf : m.find? (fun e => e.1 == k) with
    | some e =>
      dsimp only
      obtain ⟨q1, q2, q3, q4, ⟨δ, hδ⟩, q6, q7⟩ := ih m next h1 h2 h3
      have hkm : k ∈ m.map Prod.fst := by
        obtain ⟨hmem, hek⟩ := find?_some_mem m k e hf
        exact hek ▸ List.mem_map_of_mem Prod.fst hmem
      have hfd : firstDedup (m.map Prod.fst) (k :: ks)
          = firstDedup (m.map Prod.fst) ks := by
        show List.foldl _ (if k ∈ m.map Prod.fst then _ else _) ks = _
        rw [if_pos hkm]
        rfl
      refine ⟨by rw [hfd]; exact q1, q2, q3, q4, ⟨δ, hδ⟩, ?_, ?_⟩
      · simp only [List.map_cons]
        rw [← q6, hδ, lookupV_append_left m δ k e hf]
      · intro k' hk'
        rcases List.mem_cons.mp hk' with rfl | hk''
        · rw [hδ]
          simp only [List.map_append]
          exact List.mem_append_left _ hkm
        · exact q7 k' hk''
    | none =>
      dsimp only
      have hknm : k ∉ m.map Prod.fst := find?_none_not_mem m k hf
      have h1' : ((m ++ [(k, next)]).map Prod.fst).Nodup := by
        simp only [List.map_append, List.map_cons, List.map_nil]
        rw [List.nodup_append]
        refine ⟨h1, List.nodup_singleton k, ?_⟩
        intro a ha hb
        simp only [List.mem_singleton] at hb
        subst hb
        exact hknm ha
      have h2' : (m ++ [(k, next)]).map Prod.snd
          = List.range' 1 (m ++ [(k, next)]).length := by
        simp only [List.map_append, List.map_cons, List.map_nil,
          List.length_append, List.length_singleton]
        rw [List.range'_concat, h2, h3]
        simp [Nat.add_comm]
      have h3' : next + 1 = (m ++ [(k, next)]).length + 1 := by
        simp [h3]
      obtain ⟨q1, q2, q3, q4, ⟨δ, hδ⟩, q6, q7⟩ :=
        ih (m ++ [(k, next)]) (next + 1) h1' h2' h3'
      have hδ' : (renumberIds (m ++ [(k, next)]) (next + 1) ks).1
          = m ++ ((k, next) :: δ) := by
        rw [hδ]
        simp
      have hfd : firstDedup (m.map Prod.fst) (k :: ks)
          = firstDedup ((m ++ [(k, next)]).map Prod.fst) ks := by
        show List.foldl _ (if k ∈ m.map Prod.fst then _ else _) ks = _
        rw [if_neg hknm]
        simp only [List.map_append, List.map_cons, List.map_nil]
        rfl
      refine ⟨by rw [hfd]; exact q1, q2, q3, q4, ⟨(k, next) :: δ, hδ'⟩, ?_, ?_⟩
      · simp only [List.map_cons]
        rw [← q6, hδ', lookupV_append_right m δ k next hf]
      · intro k' hk'
        rcases List.mem_cons.mp hk' with rfl | hk''
        · rw [hδ']
          simp
        · exact q7 k' hk''

lemma lookupV_cons_pos (e : Nat × Nat) (m : List (Nat × Nat)) (k : Nat)
    (h : (e.1 == k) = true) : lookupV (e :: m) k = e.2 := by
  unfold lookupV
  rw [@List.find?_cons_of_pos _ (fun x => x.1 == k) e m h]

lemma lookupV_cons_neg (e : Nat × Nat) (m : List (Nat × Nat)) (k : Nat)
    (h : ¬ (e.1 == k) = true) : lookupV (e :: m) k = lookupV m k := by
  unfold lookupV
  rw [@List.find?_cons_of_neg _ (fun x => x.1 == k) e m h]

lemma lookupV_mem (m : List (Nat × Nat)) (k : Nat)
    (hk : k ∈ m.map Prod.fst) : lookupV m k ∈ m.map Prod.snd := by
  induction m with
  | nil => cases hk
  | cons e m ih =>
    by_cases hek : (e.1 == k) = true
    · rw [lookupV_cons_pos e m k hek]
      exact List.mem_cons_self _ _
    · rw [lookupV_cons_neg e m k hek]
      have hk' : k ∈ m.map Prod.fst := by
        rcases List.mem_cons.mp hk with heq | hmem
        · exact absurd (by simp [heq]) hek
        · exact hmem
      exact List.mem_cons_of_mem _ (ih hk')

lemma lookupV_inj (m : List (Nat × Nat))
    (hkeys : (m.map Prod.fst).Nodup) (hvals : (m.map Prod.snd).Nodup)
    (a b : Nat) (ha : a ∈ m.map Prod.fst) (hb : b ∈ m.map Prod.fst)
    (heq : lookupV m a = lookupV m b) : a = b := by
  induction m with
  | nil => cases ha
  | cons e m ih =>
    rw [List.map_cons] at hkeys hvals
    by_cases hea : (e.1 == a) = true
    · by_cases heb : (e.1 == b) = true
      · have h1 : e.1 = a := by simpa using hea
        have h2 : e.1 = b := by simpa using heb
        rw [← h1, h2]
      · have hb' : b ∈ m.map Prod.fst := by
          rcases List.mem_cons.mp hb with hbe | hmem
          · exact absurd (by simp [hbe]) heb
          · exact hmem
        rw [lookupV_cons_pos e m a hea, lookupV_cons_neg e m b heb] at heq
        have hmemv : lookupV m b ∈ m.map Prod.snd := lookupV_mem m b hb'
        rw [← heq] at hmemv
        exact absurd hmemv (List.nodup_cons.mp hvals).1
    · by_cases heb : (e.1 == b) = true
      · have ha' : a ∈ m.map Prod.fst := by
          rcases List.mem_cons.mp ha with hae | hmem
          · exact absurd (by simp [hae]) hea
          · exact hmem
        rw [lookupV_cons_neg e m a hea, lookupV_cons_pos e m b heb] at heq
        have hmemv : lookupV m a ∈ m.map Prod.snd := lookupV_mem m a ha'
        rw [heq] at hmemv
        exact absurd hmemv (List.nodup_cons.mp hvals).1
      · have ha' : a ∈ m.map Prod.fst := by
          rcases List.mem_cons.mp ha with hae | hmem
          · exact absurd (by simp [hae]) hea
          · exact hmem
        have hb' : b ∈ m.map Prod.fst := by
          rcases List.mem_cons.mp hb with hbe | hmem
          · exact absurd (by simp [hbe]) heb
          · exact hmem
        rw [lookupV_cons_neg e m a hea, lookupV_cons_neg e m b heb] at heq
        exact ih (List.nodup_cons.mp hkeys).2 (List.nodup_cons.mp hvals).2 ha' hb' heq

lemma map_lookupV_keys (m : List (Nat × Nat))
    (hkeys : (m.map Prod.fst).Nodup) :
    (m.map Prod.fst).map (lookupV m) = m.map Prod.snd := by
  induction m with
  | nil => rfl
  | cons e m ih =>
    rw [List.map_cons] at hkeys
    obtain ⟨hnm, hnd⟩ := List.nodup_cons.mp hkeys
    simp only [List.map_cons]
    have hhead : lookupV (e :: m) e.1 = e.2 := lookupV_cons_pos e m e.1 (by simp)
    have htail : List.map (lookupV (e :: m)) (m.map Prod.fst)
        = List.map (lookupV m) (m.map Prod.fst) := by
      apply List.map_congr_left
      intro a ha
      have hne : ¬ (e.1 == a) = true := by
        simp only [beq_iff_eq]
        intro hcon
        exact hnm (hcon ▸ ha)
      exact lookupV_cons_neg e m a hne
    rw [hhead, htail, ih hnd]

lemma firstDedup_cons (seen : List Nat) (a : Nat) (l : List Nat) :
    firstDedup seen (a :: l)
      = firstDedup (if a ∈ seen then seen else seen ++ [a]) l := rfl

lemma firstDedup_map (f : Nat → Nat) :
    ∀ (l seen : List Nat),
      (∀ a ∈ seen ++ l, ∀ b ∈ seen ++ l, f a = f b → a = b) →
      firstDedup (seen.map f) (l.map f) = (firstDedup seen l).map f := by
  intro l
  induction l with
  | nil => intro seen _; rfl
  | cons a l ih =>
    intro seen hinj
    have hamem : a ∈ seen ++ a :: l := by simp
    have hmem : (f a ∈ seen.map f) ↔ (a ∈ seen) := by
      constructor
      · intro hfa
        obtain ⟨b, hb, hba⟩ := List.mem_map.mp hfa
        have hba' : b = a :=
          hinj b (List.mem_append_left _ hb) a hamem hba
        exact hba' ▸ hb
      · exact List.mem_map_of_mem f
    simp only [List.map_cons, firstDedup_cons]
    by_cases ha : a ∈ seen
    · rw [if_pos (hmem.mpr ha), if_pos ha]
      apply ih seen
      intro x hx y hy
      apply hinj
      · rcases List.mem_append.mp hx with h | h
        · exact List.mem_append_left _ h
        · exact List.mem_append_right _ (List.mem_cons_of_mem _ h)
      · rcases List.mem_append.mp hy with h | h
        · exact List.mem_append_left _ h
        · exact List.mem_append_right _ (List.mem_cons_of_mem _ h)
    · rw [if_neg (fun h => ha (hmem.mp h)), if_neg ha]
      have hm : (seen ++ [a]).map f = seen.map f ++ [f a] := by simp
      rw [← hm]
      apply ih (seen ++ [a])
      intro x hx y hy
      apply hinj
      · rcases List.mem_append.mp hx with h | h
        · rcases List.mem_append.mp h with h' | h'
          · exact List.mem_append_left _ h'
          · simp only [List.mem_singleton] at h'
            exact h' ▸ hamem
        · exact List.mem_append_right _ (List.mem_cons_of_mem _ h)
      · rcases List.mem_append.mp hy with h | h
        · rcases List.mem_append.mp h with h' | h'
          · exact List.mem_append_left _ h'
          · simp only [List.mem_singleton] at h'
            exact h' ▸ hamem
        · exact List.mem_append_right _ (List.mem_cons_of_mem _ h)

lemma renumber_out_props (ids : List Nat) :
    (renumberIds [] 1 ids).2.2
        = ids.map (lookupV (renumberIds [] 1 ids).1)
    ∧ (∀ a ∈ ids, ∀ b ∈ ids,
        lookupV (renumberIds [] 1 ids).1 a = lookupV (renumberIds [] 1 ids).1 b →
        a = b)
    ∧ firstDedup [] (renumberIds [] 1 ids).2.2
        = List.range' 1 (firstDedup [] ids).length := by
  obtain ⟨q1, q2, q3, q4, -, q6, q7⟩ :=
    renumberIds_spec ids [] 1 List.nodup_nil rfl rfl
  have hvals : ((renumberIds [] 1 ids).1.map Prod.snd).Nodup := by
    rw [q2]
    exact List.nodup_range' 1 _
  have hinj : ∀ a ∈ ids, ∀ b ∈ ids,
      lookupV (renumberIds [] 1 ids).1 a = lookupV (renumberIds [] 1 ids).1 b →
      a = b := by
    intro a ha b hb heq
    exact lookupV_inj _ q3 hvals a b (q7 a ha) (q7 b hb) heq
  refine ⟨q6, hinj, ?_⟩
  rw [q6]
  have hd : firstDedup [] (ids.map (lookupV (renumberIds [] 1 ids).1))
      = (firstDedup [] ids).map (lookupV (renumberIds [] 1 ids).1) := by
    have := firstDedup_map (lookupV (renumberIds [] 1 ids).1) ids []
      (by intro a ha b hb; exact hinj a (by simpa using ha) b (by simpa using hb))
    simpa using this
  rw [hd]
  have hkeys : (renumberIds [] 1 ids).1.map Prod.fst = firstDedup [] ids := by
    simpa using q1
  rw [← hkeys, map_lookupV_keys _ q3, q2, hkeys]
  have hlen : (renumberIds [] 1 ids).1.length = (firstDedup [] ids).length := by
    rw [← hkeys, List.length_map]
  rw [hlen]

lemma renumber_planks_len (cs : List Column) :
    (renumber cs).map (fun c => c.planks.length)
      = cs.map (fun c => c.planks.length) :=
  (renumberCols_sim [] 1 cs).2.2.2.2.2

lemma renumber_heights (cs : List Column) :
    (renumber cs).map Column.height = cs.map Column.height :=
  (renumberCols_sim [] 1 cs).2.2.2.1

lemma renumber_lefts (cs : List Column) :
    (renumber cs).map (fun c => c.left) = cs.map (fun c => c.left) :=
  (renumberCols_sim [] 1 cs).2.2.2.2.1

lemma renumber_flatIds (cs : List Column) :
    flatIds (renumber cs) = (renumberIds [] 1 (flatIds cs)).2.2 :=
  (renumberCols_sim [] 1 cs).2.2.1

lemma totalPlanks_shuffle (swaps : List (Nat × Nat)) (cols : List Column) :
    totalPlanks (renumber (sortColumns (swapPhase swaps cols))) = totalPlanks cols := by
  unfold totalPlanks
  rw [renumber_planks_len]
  rw [((sortColumns_perm (swapPhase swaps cols)).map (fun c => c.planks.length)).sum_eq]
  rw [swapPhase_map _ setLeft_planks_length]

lemma heightsM_shuffle (swaps : List (Nat × Nat)) (cols : List Column) :
    heightsM (renumber (sortColumns (swapPhase swaps cols))) = heightsM cols := by
  unfold heightsM
  rw [renumber_heights]
  have hperm := (sortColumns_perm (swapPhase swaps cols)).map Column.height
  rw [Multiset.coe_eq_coe.mpr hperm]
  rw [swapPhase_map _ setLeft_height]

lemma sorted_transfer (cs ds : List Column)
    (h : ds.map (fun c => c.left) = cs.map (fun c => c.left))
    (hs : List.Sorted leftLE cs) : List.Sorted leftLE ds := by
  have h1 : List.Pairwise (fun a b : ℚ => a ≤ b) (cs.map (fun c => c.left)) := by
    rw [List.pairwise_map]
    exact hs
  rw [← h] at h1
  rw [List.pairwise_map] at h1
  exact h1

/-- C7: `Room.shuffle` (the `Math.random` draws abstracted by the list of
transpositions actually performed) keeps the total plank count and the
multiset of column heights, re-sorts the columns ascending by `left`,
renumbers ids so that the distinct ids in traversal order are exactly
`1..N` (`N` the number of distinct old ids), maps equal old ids to equal
new ids and distinct old ids to distinct new ids (so both pieces of a cut
keep one shared id), and a second shuffle preserves the same plank count
and height multiset. -/
theorem shuffle_invariants (swaps swaps2 : List (Nat × Nat)) (r : Room) :
    totalPlanks (Room.shuffle swaps r).columns = totalPlanks r.columns
    ∧ heightsM (Room.shuffle swaps r).columns = heightsM r.columns
    ∧ List.Sorted leftLE (Room.shuffle swaps r).columns
    ∧ firstDedup [] (flatIds (Room.shuffle swaps r).columns)
        = List.range' 1 (firstDedup []
            (flatIds (sortColumns (swapPhase swaps r.columns)))).length
    ∧ (∀ i j : Nat,
        i < (flatIds (sortColumns (swapPhase swaps r.columns))).length →
        j < (flatIds (sortColumns (swapPhase swaps r.columns))).length →
        ((flatIds (Room.shuffle swaps r).columns).get? i
            = (flatIds (Room.shuffle swaps r).columns).get? j
          ↔ (flatIds (sortColumns (swapPhase swaps r.columns))).get? i
            = (flatIds (sortColumns (swapPhase swaps r.columns))).get? j))
    ∧ totalPlanks (Room.shuffle swaps2 (Room.shuffle swaps r)).columns
        = totalPlanks r.columns
    ∧ heightsM (Room.shuffle swaps2 (Room.shuffle swaps r)).columns
        = heightsM r.columns := by
  have hcols : (Room.shuffle swaps r).columns
      = renumber (sortColumns (swapPhase swaps r.columns)) := rfl
  have hcols2 : (Room.shuffle swaps2 (Room.shuffle swaps r)).columns
      = renumber (sortColumns (swapPhase swaps2 (Room.shuffle swaps r).columns)) := rfl
  obtain ⟨hmap, hinj, hcontig⟩ :=
    renumber_out_props (flatIds (sortColumns (swapPhase swaps r.columns)))
  refine ⟨?_, ?_, ?_, ?_, ?_, ?_, ?_⟩
  · rw [hcols]
    exact totalPlanks_shuffle swaps r.columns
  · rw [hcols]
    exact heightsM_shuffle swaps r.columns
  · rw [hcols]
    exact sorted_transfer _ _ (renumber_lefts _)
      (sortColumns_sorted (swapPhase swaps r.columns))
  · rw [hcols, renumber_flatIds]
    exact hcontig
  · intro i j hi hj
    rw [hcols, renumber_flatIds, hmap]
    have hgi := List.get?_eq_get hi
    have hgj := List.get?_eq_get hj
    constructor
    · intro hnew
      rw [List.get?_map, List.get?_map, hgi, hgj] at hnew
      simp only [Option.map_some', Option.some.injEq] at hnew
      have heq := hinj _ (List.get_mem _ i hi) _ (List.get_mem _ j hj) hnew
      rw [hgi, hgj, heq]
    · intro hold
      rw [List.get?_map, List.get?_map, hold]
  · rw [hcols2, hcols]
    rw [totalPlanks_shuffle swaps2 _, totalPlanks_shuffle swaps r.columns]
  · rw [hcols2, hcols]
    rw [heightsM_shuffle swaps2 _, heightsM_shuffle swaps r.columns]

/-- Witness for `shuffle_invariants` on the two-column fixture with one
transposition. -/
theorem shuffle_invariants_witness :
    totalPlanks (Room.shuffle [(0, 1)] shuffleDemo).columns
        = totalPlanks shuffleDemo.columns
    ∧ heightsM (Room.shuffle [(0, 1)] shuffleDemo).columns
        = heightsM shuffleDemo.columns
    ∧ List.Sorted leftLE (Room.shuffle [(0, 1)] shuffleDemo).columns :=
  ⟨(shuffle_invariants [(0, 1)] [] shuffleDemo).1,
   (shuffle_invariants [(0, 1)] [] shuffleDemo).2.1,
   (shuffle_invariants [(0, 1)] [] shuffleDemo).2.2.1⟩
